import Mathlib

set_option maxRecDepth 10000
set_option exponentiation.threshold 1200

/-!
Verification of the rvm expression engine: a shallow embedding of the
parser (`compiler.rs`), bytecode compiler (`compiler.rs`), value codec and
arithmetic (`value.rs`), opcode set (`opcode.rs`), operand stack
(`stack.rs`) and dispatch loop (`vm.rs`).

Modelling conventions:
* Rust `i64` payloads are carried as `ℤ` with every arithmetic operation
  checked against the `i64` range: `+`, `-`, `*` and the factorial's
  range product return the exact result when it fits in `i64` and
  `VmError.intOverflow` otherwise (the overflow panic of the crate's
  checked build profile; a release build would wrap instead — that
  difference only shows on out-of-range results, which are modelled as
  the abort), and `/` and `%` abort on the lone overflowing input pair
  `(i64::MIN, -1)`, on which Rust panics in every build profile.
  Two's-complement wrapping matters at the byte codec, where it is
  modelled explicitly (`toU64` / `fromU64`).
* Rust `f64` payloads are modelled as exact rationals `ℚ`; IEEE-754
  rounding is outside the model.  The byte codec uses a genuine partial
  IEEE-754 binary64 encoder (`f64ToBits`) and exact decoder (`bitsToRat`):
  both agree with Rust bit-for-bit on every exactly representable finite
  value, which covers every float value the verified claims exercise.
* Rust panics are modelled as `Except.error` outcomes of the VM.
* The crate references `Opcode::Sqrt` in `compiler.rs`, but `opcode.rs`
  and `vm.rs` do not define that opcode or its dispatch; those two pieces
  are modelled from the spec (marked `Modelled from the spec:` below).
-/

namespace Rvm

/-! ## Byte-level helpers (value.rs: `to_be_bytes` / `from_be_bytes`) -/

/-- The 8 big-endian base-256 digits of a 64-bit word, most significant
first, as produced by Rust's `to_be_bytes`. -/
def beBytes8 (u : ℕ) : List ℕ :=
  [u / 2 ^ 56 % 256, u / 2 ^ 48 % 256, u / 2 ^ 40 % 256, u / 2 ^ 32 % 256,
   u / 2 ^ 24 % 256, u / 2 ^ 16 % 256, u / 2 ^ 8 % 256, u % 256]

/-- Recombine big-endian base-256 digits into a natural number, as done by
Rust's `from_be_bytes`. -/
def fromBe8 (l : List ℕ) : ℕ :=
  l.foldl (fun a b => a * 256 + b) 0

/-- The two's-complement 64-bit representation of an integer (what
`i64::to_be_bytes` serializes). -/
def toU64 (n : ℤ) : ℕ :=
  (n % (2 ^ 64 : ℤ)).toNat

/-- Read a 64-bit word back as a signed two's-complement integer (what
`i64::from_be_bytes` yields). -/
def fromU64 (u : ℕ) : ℤ :=
  if u < 2 ^ 63 then (u : ℤ) else (u : ℤ) - 2 ^ 64

theorem beBytes8_length (u : ℕ) : (beBytes8 u).length = 8 := rfl

theorem fromBe8_beBytes8 (u : ℕ) (h : u < 2 ^ 64) : fromBe8 (beBytes8 u) = u := by
  simp only [beBytes8, fromBe8, List.foldl]
  omega

theorem toU64_lt (n : ℤ) : toU64 n < 2 ^ 64 := by
  have h := Int.emod_lt_of_pos n (b := 2 ^ 64) (by norm_num)
  have h' := Int.emod_nonneg n (b := 2 ^ 64) (by norm_num)
  simp only [toU64]
  omega

theorem fromU64_toU64 (n : ℤ) (h₁ : -(2 ^ 63) ≤ n) (h₂ : n < 2 ^ 63) :
    fromU64 (toU64 n) = n := by
  have h := Int.emod_lt_of_pos n (b := 2 ^ 64) (by norm_num)
  have h' := Int.emod_nonneg n (b := 2 ^ 64) (by norm_num)
  have hcases : n % (2 ^ 64 : ℤ) = n ∨ n % (2 ^ 64 : ℤ) = n + 2 ^ 64 := by
    rcases le_or_lt 0 n with hn | hn
    · left
      exact Int.emod_eq_of_lt hn (by omega)
    · right
      have : (n + 2 ^ 64) % (2 ^ 64 : ℤ) = n % (2 ^ 64 : ℤ) := by
        omega
      rw [← this, Int.emod_eq_of_lt (by omega) (by omega)]
  simp only [fromU64, toU64]
  rcases hcases with hc | hc <;> rw [hc] <;> omega

/-! ## A partial exact IEEE-754 binary64 codec

`bitsToRat` decodes a binary64 bit pattern into the exact rational it
denotes (infinities and NaNs, which have no rational denotation, go to 0
and are excluded by hypotheses).  `f64ToBits` encodes a rational that is
exactly representable as a finite binary64 value into its bit pattern, and
returns 0 on rationals that are not exactly representable.  On exactly
representable values both functions agree bit-for-bit with Rust's
`f64::to_be_bytes` / `f64::from_be_bytes` view of the payload. -/

/-- Number of binary digits of `n` (0 for 0), fuel-driven so that it
reduces definitionally. -/
def bitlenAux : ℕ → ℕ → ℕ
  | 0, _ => 0
  | f + 1, n => if n = 0 then 0 else bitlenAux f (n / 2) + 1

/-- Binary length of a natural number: `bitlen n = ⌊log₂ n⌋ + 1` for `n > 0`. -/
def bitlen (n : ℕ) : ℕ := bitlenAux n n

/-- Decode an IEEE-754 binary64 bit pattern to the exact rational value it
denotes.  Exponent field 2047 (infinities, NaNs) decodes to 0; such
patterns are excluded by hypotheses wherever exactness is claimed. -/
def bitsToRat (b : ℕ) : ℚ :=
  let s : ℕ := b / 2 ^ 63 % 2
  let E : ℕ := b / 2 ^ 52 % 2 ^ 11
  let M : ℕ := b % 2 ^ 52
  if E = 2047 then 0
  else
    let mag : ℚ :=
      if E = 0 then (M : ℚ) / ((2 ^ 1074 : ℕ) : ℚ)
      else (((2 ^ 52 + M) * 2 ^ E : ℕ) : ℚ) / ((2 ^ 1075 : ℕ) : ℚ)
    if s = 1 then -mag else mag

/-- Encode a rational as an IEEE-754 binary64 bit pattern.  Exact: if the
rational is not exactly representable as a finite binary64 value the
function returns 0 (and the round-trip hypothesis used by the codec
theorems fails), never a rounded pattern. -/
def f64ToBits (q : ℚ) : ℕ :=
  if q = 0 then 0
  else
    let s : ℕ := if q < 0 then 1 else 0
    let num := q.num.natAbs
    let den := q.den
    let d := bitlen den - 1
    if den ≠ 2 ^ d then 0
    else
      let L := bitlen num
      let e : ℤ := (L : ℤ) - 1 - (d : ℤ)
      if -1022 ≤ e then
        let t : ℤ := 52 - e - (d : ℤ)
        let M : ℕ :=
          if 0 ≤ t then num * 2 ^ t.toNat
          else if 2 ^ (-t).toNat ∣ num then num / 2 ^ (-t).toNat else 0
        if M < 2 ^ 52 ∨ 2 ^ 53 ≤ M then 0
        else
          let E : ℤ := e + 1023
          if 2047 ≤ E then 0
          else s * 2 ^ 63 + E.toNat * 2 ^ 52 + (M - 2 ^ 52)
      else
        let M : ℕ :=
          if d ≤ 1074 then num * 2 ^ (1074 - d)
          else if 2 ^ (d - 1074) ∣ num then num / 2 ^ (d - 1074) else 0
        if M < 2 ^ 52 then s * 2 ^ 63 + M else 0

theorem f64ToBits_lt (q : ℚ) : f64ToBits q < 2 ^ 64 := by
  have hs : (if q < 0 then (1 : ℕ) else 0) ≤ 1 := by split <;> norm_num
  simp only [f64ToBits]
  repeat' split
  all_goals omega

/-! ## value.rs: the tagged scalar `Value` -/

/-- The two-variant numeric value of `value.rs`: `Int(i64)` modelled with
unbounded `ℤ`, `Float(f64)` modelled with exact `ℚ`. -/
inductive Value where
  | Int (n : ℤ)
  | Float (q : ℚ)
  deriving DecidableEq, Repr

namespace Value

/-- `Value::to_vec`: a type tag byte (0 for Int, 1 for Float) followed by
the 8 big-endian payload bytes (`to_be_bytes` of the `i64`, respectively of
the `f64` bit pattern). -/
def to_vec : Value → List ℕ
  | .Int n => 0 :: beBytes8 (toU64 n)
  | .Float q => 1 :: beBytes8 (f64ToBits q)

/-- `Value::size`: 9 bytes for either variant. -/
def size : Value → ℕ
  | .Int _ => 9
  | .Float _ => 9

/-- `From<&[u8]> for Value`: dispatch on the tag byte, read the next 8
bytes big-endian.  Rust panics (bad tag, slice shorter than 9 bytes) are
modelled as `none`. -/
def fromBytes (l : List ℕ) : Option Value :=
  match l with
  | [] => none
  | t :: rest =>
    if t = 0 then
      if 8 ≤ rest.length then some (.Int (fromU64 (fromBe8 (rest.take 8)))) else none
    else if t = 1 then
      if 8 ≤ rest.length then some (.Float (bitsToRat (fromBe8 (rest.take 8)))) else none
    else none

theorem to_vec_length (v : Value) : v.to_vec.length = 9 := by
  cases v <;> rfl

theorem size_eq (v : Value) : v.size = 9 := by
  cases v <;> rfl

/-- What a value becomes after one encode/decode round trip through the
byte codec: the `i64` payload is wrapped to its two's-complement range and
the `f64` payload goes through the bit-pattern codec. -/
def canon : Value → Value
  | .Int n => .Int (fromU64 (toU64 n))
  | .Float q => .Float (bitsToRat (f64ToBits q))

theorem fromBytes_to_vec (v : Value) (rest : List ℕ) :
    fromBytes (v.to_vec ++ rest) = some v.canon := by
  cases v with
  | Int n =>
    have hlt := toU64_lt n
    have htake : (beBytes8 (toU64 n) ++ rest).take 8 = beBytes8 (toU64 n) :=
      List.take_left' (beBytes8_length _)
    have hlen : 8 ≤ (beBytes8 (toU64 n) ++ rest).length := by
      simp [List.length_append, beBytes8_length]
    show fromBytes (0 :: (beBytes8 (toU64 n) ++ rest)) = _
    rw [fromBytes, if_pos rfl, if_pos hlen, htake, fromBe8_beBytes8 _ hlt]
    rfl
  | Float q =>
    have hlt := f64ToBits_lt q
    have htake : (beBytes8 (f64ToBits q) ++ rest).take 8 = beBytes8 (f64ToBits q) :=
      List.take_left' (beBytes8_length _)
    have hlen : 8 ≤ (beBytes8 (f64ToBits q) ++ rest).length := by
      simp [List.length_append, beBytes8_length]
    show fromBytes (1 :: (beBytes8 (f64ToBits q) ++ rest)) = _
    rw [fromBytes, if_neg (by norm_num), if_pos rfl, if_pos hlen, htake,
      fromBe8_beBytes8 _ hlt]
    rfl

/-! ### Arithmetic and promotion (value.rs `impl Add/Sub/Mul/Div/Rem`) -/

end Value

/-- The fatal abort conditions of the interpreter (Rust panics).
`intOverflow` models the checked-arithmetic overflow panics of the `i64`
operations: division/remainder overflow at `(i64::MIN, -1)` panics in
every build profile; add/sub/mul/product overflow panics under the
overflow-checked profile the crate's own tests run in (release-mode Rust
wraps instead — either way the unbounded-integer result is not
produced). -/
inductive VmError where
  | stackOverflow
  | stackUnderflow
  | invalidOpcode
  | invalidValueType
  | divByZero
  | intOverflow
  deriving DecidableEq, Repr

/-- Truncation of a rational toward zero, as Rust's `f64::trunc`:
`num.tdiv den` truncates because `den > 0` and `tdiv` is T-division. -/
def ratTrunc (q : ℚ) : ℤ := q.num.tdiv (q.den : ℤ)

/-- Rust `%` on `f64`: the IEEE remainder with the sign of the dividend,
`a - (a/b).trunc * b`, computed exactly on rationals. -/
def qrem (a b : ℚ) : ℚ := a - (ratTrunc (a / b) : ℚ) * b

namespace Value

/-- `impl Add for Value`: Int∘Int stays Int under checked `i64` addition
(out-of-range results are the overflow panic, see `VmError.intOverflow`);
any Float operand widens the other to Float.  Float payloads are exact
rationals: the result equals Rust's bit-for-bit whenever the exact result
is representable (IEEE addition is correctly rounded), which the
claim theorems state as an explicit hypothesis. -/
def add : Value → Value → Except VmError Value
  | .Int a, .Int b =>
    if -(2 ^ 63) ≤ a + b ∧ a + b < 2 ^ 63 then .ok (.Int (a + b))
    else .error .intOverflow
  | .Float a, .Float b => .ok (.Float (a + b))
  | .Int a, .Float b => .ok (.Float ((a : ℚ) + b))
  | .Float a, .Int b => .ok (.Float (a + (b : ℚ)))

/-- `impl Sub for Value` (checked `i64` subtraction; see `add`). -/
def sub : Value → Value → Except VmError Value
  | .Int a, .Int b =>
    if -(2 ^ 63) ≤ a - b ∧ a - b < 2 ^ 63 then .ok (.Int (a - b))
    else .error .intOverflow
  | .Float a, .Float b => .ok (.Float (a - b))
  | .Int a, .Float b => .ok (.Float ((a : ℚ) - b))
  | .Float a, .Int b => .ok (.Float (a - (b : ℚ)))

/-- `impl Mul for Value` (checked `i64` multiplication; see `add`). -/
def mul : Value → Value → Except VmError Value
  | .Int a, .Int b =>
    if -(2 ^ 63) ≤ a * b ∧ a * b < 2 ^ 63 then .ok (.Int (a * b))
    else .error .intOverflow
  | .Float a, .Float b => .ok (.Float (a * b))
  | .Int a, .Float b => .ok (.Float ((a : ℚ) * b))
  | .Float a, .Int b => .ok (.Float (a * (b : ℚ)))

/-- `impl Div for Value`: Rust `i64` division truncates; it panics on a
zero divisor ("attempt to divide by zero") and on `(i64::MIN, -1)`
("attempt to divide with overflow" — in every build profile).  Float
division is IEEE (exact here, with the `q / 0` = IEEE-infinity case
outside the rational model and unexercised by the claims). -/
def div : Value → Value → Except VmError Value
  | .Int a, .Int b =>
    if b = 0 then .error .divByZero
    else if a = -(2 ^ 63) ∧ b = -1 then .error .intOverflow
    else .ok (.Int (a.tdiv b))
  | .Float a, .Float b => .ok (.Float (a / b))
  | .Int a, .Float b => .ok (.Float ((a : ℚ) / b))
  | .Float a, .Int b => .ok (.Float (a / (b : ℚ)))

/-- `impl Rem for Value`: `i64 %` is the truncating remainder (sign of the
dividend); it panics on a zero divisor and on `(i64::MIN, -1)` ("attempt
to calculate the remainder with overflow" — in every build profile);
`f64 %` is `qrem`. -/
def rem : Value → Value → Except VmError Value
  | .Int a, .Int b =>
    if b = 0 then .error .divByZero
    else if a = -(2 ^ 63) ∧ b = -1 then .error .intOverflow
    else .ok (.Int (a.tmod b))
  | .Float a, .Float b => .ok (.Float (qrem a b))
  | .Int a, .Float b => .ok (.Float (qrem (a : ℚ) b))
  | .Float a, .Int b => .ok (.Float (qrem a (b : ℚ)))

/-- Widen a value to its floating-point magnitude (`as f64` on Int). -/
def toQ : Value → ℚ
  | .Int n => (n : ℚ)
  | .Float q => q

end Value

/-- `Vm::run`'s Factorial handler computes `(1..=value).product()` on
`i64`: the product of the ascending range `1..=n`, which is empty
(product 1) for `n ≤ 0`, and whose running checked multiplications abort
with the overflow panic once the product leaves the `i64` range (which
happens exactly for `n ≥ 21`; release-mode Rust would wrap instead —
either way the unbounded product is not produced). `rangeStep` is one
checked multiplication of the running product by the next element of the
ascending range (the `i`-th element being `i + 1`). -/
def rangeStep (acc : Except VmError ℤ) (i : ℕ) : Except VmError ℤ :=
  match acc with
  | .error e => .error e
  | .ok a =>
    if -(2 ^ 63) ≤ a * ((i : ℤ) + 1) ∧ a * ((i : ℤ) + 1) < 2 ^ 63 then
      .ok (a * ((i : ℤ) + 1))
    else .error .intOverflow

def rangeProd (n : ℤ) : Except VmError ℤ :=
  (List.range n.toNat).foldl rangeStep (.ok 1)

theorem rangeProd_nonpos (n : ℤ) (h : n ≤ 0) : rangeProd n = .ok 1 := by
  have : n.toNat = 0 := by omega
  simp [rangeProd, this]

theorem rangeProd_small (n : ℤ) (h₀ : 0 ≤ n) (h₂₀ : n ≤ 20) :
    rangeProd n = .ok (Nat.factorial n.toNat : ℤ) := by
  interval_cases n <;> rfl

theorem rangeStep_foldl_error (l : List ℕ) (e : VmError) :
    l.foldl rangeStep (.error e) = .error e := by
  induction l with
  | nil => rfl
  | cons i tl ih => exact ih

/-- From n = 21 on the running i64 product overflows: the VM aborts with
the overflow panic instead of producing 21!, 22!, ... . -/
theorem rangeProd_big (n : ℤ) (h : 21 ≤ n) :
    rangeProd n = .error .intOverflow := by
  have hn : n.toNat = 21 + (n.toNat - 21) := by omega
  unfold rangeProd
  rw [hn, List.range_add, List.foldl_append]
  have h21 : (List.range 21).foldl rangeStep (.ok 1) =
      (.error .intOverflow : Except VmError ℤ) := by
    with_unfolding_all rfl
  rw [h21, rangeStep_foldl_error]

/-- The only error the range product itself can raise is the overflow
panic. -/
theorem rangeProd_error (n : ℤ) (e : VmError) (h : rangeProd n = .error e) :
    e = .intOverflow := by
  suffices key : ∀ (l : List ℕ) (a : ℤ),
      l.foldl rangeStep (.ok a) = .error e → e = .intOverflow from key _ 1 h
  intro l
  induction l with
  | nil => intro a h'; cases h'
  | cons i tl ih =>
    intro a h'
    simp only [List.foldl_cons] at h'
    by_cases hc : -(2 ^ 63) ≤ a * ((i : ℤ) + 1) ∧ a * ((i : ℤ) + 1) < 2 ^ 63
    · rw [show rangeStep (.ok a) i = .ok (a * ((i : ℤ) + 1)) from by
        simp only [rangeStep]; rw [if_pos hc]] at h'
      exact ih _ h'
    · rw [show rangeStep (.ok a) i = .error .intOverflow from by
        simp only [rangeStep]; rw [if_neg hc]] at h'
      rw [rangeStep_foldl_error] at h'
      cases h'
      rfl

/-! ## Square root (Modelled from the spec) -/

/-- Integer square root by descending linear search, fuel-driven so it
reduces definitionally: the largest `m ≤ f` with `m * m ≤ n`. -/
def isqrtAux : ℕ → ℕ → ℕ
  | 0, _ => 0
  | f + 1, n => if n < (f + 1) * (f + 1) then isqrtAux f n else f + 1

/-- Integer square root (exact on perfect squares). -/
def isqrt (n : ℕ) : ℕ := isqrtAux n n

theorem isqrtAux_eq (f n k : ℕ) (hk : k ≤ f) (h₁ : k * k ≤ n)
    (h₂ : n < (k + 1) * (k + 1)) : isqrtAux f n = k := by
  induction f with
  | zero =>
    simp only [isqrtAux]
    omega
  | succ m ih =>
    by_cases hc : k = m + 1
    · subst hc
      simp [isqrtAux, Nat.not_lt_of_le h₁]
    · have hkm : k ≤ m := by omega
      have hlt : n < (m + 1) * (m + 1) := by
        calc n < (k + 1) * (k + 1) := h₂
        _ ≤ (m + 1) * (m + 1) := Nat.mul_le_mul (by omega) (by omega)
      simp only [isqrtAux, if_pos hlt]
      exact ih hkm

theorem isqrt_eq (k : ℕ) : isqrt (k * k) = k := by
  have hk : k ≤ k * k ∨ k = 0 := by
    rcases Nat.eq_zero_or_pos k with h | h
    · right; exact h
    · left; exact Nat.le_mul_of_pos_left k h
  rcases hk with h | h
  · exact isqrtAux_eq _ _ _ h le_rfl (by nlinarith)
  · subst h; rfl

/-- Modelled from the spec: the VM dispatch for the `Sqrt` opcode is
absent from `vm.rs` (and the opcode itself from `opcode.rs`); per §4.3 it
"converts the operand to a floating-point value (if Integer, widen first)
and produces its principal square root as a Float".  In the exact rational
model this is the exact principal square root, defined (exactly) on
perfect-square rationals — the only inputs the verified claims exercise;
the IEEE rounding of irrational results is outside the model. -/
def ratSqrt (q : ℚ) : ℚ :=
  (isqrt q.num.toNat : ℚ) / (isqrt q.den : ℚ)

theorem ratSqrt_sq_nat (k : ℕ) : ratSqrt (↑(k * k) : ℚ) = (k : ℚ) := by
  have hnum : (↑(k * k) : ℚ).num = ((k * k : ℕ) : ℤ) := Rat.num_natCast _
  have hden : (↑(k * k) : ℚ).den = 1 := Rat.den_natCast _
  have hone : isqrt 1 = 1 := by decide
  rw [ratSqrt, hnum, hden, hone, Int.toNat_natCast, isqrt_eq]
  norm_num

/-! ## stack.rs: the bounded operand stack -/

/-- The VM's bounded operand stack (`stack.rs`).  The head of `data` is
the top of the stack (the end of the Rust `Vec`). -/
structure Stack where
  max : ℕ
  data : List Value
  deriving DecidableEq, Repr

namespace Stack

/-- `Stack::new`: empty data, given capacity. -/
def new (max : ℕ) : Stack := ⟨max, []⟩

/-- `Stack::push`: asserts `data.len() < max` ("stack overflow"). -/
def push (st : Stack) (v : Value) : Except VmError Stack :=
  if st.data.length < st.max then .ok ⟨st.max, v :: st.data⟩
  else .error .stackOverflow

/-- `Stack::pop`: asserts non-emptiness ("stack underflow"). -/
def pop (st : Stack) : Except VmError (Value × Stack) :=
  match st.data with
  | [] => .error .stackUnderflow
  | v :: rest => .ok (v, ⟨st.max, rest⟩)

end Stack

/-! ## opcode.rs: the instruction set -/

/-- The opcode enumeration of `opcode.rs`.  The `Sqrt` constructor is
Modelled from the spec: the compiler in `compiler.rs` references
`Opcode::Sqrt`, but `opcode.rs` does not declare it; per spec §9 it is
assigned the stable code immediately following `Factorial` (0x08). -/
inductive Opcode where
  | Literal
  | Addition
  | Subtract
  | Multiply
  | Divide
  | Modulo
  | Return
  | Factorial
  | Sqrt
  deriving DecidableEq, Repr

namespace Opcode

/-- `Opcode as u8`: the stable numeric codes (0x00–0x07 from `opcode.rs`;
0x08 for `Sqrt`, Modelled from the spec §6/§9). -/
def toByte : Opcode → ℕ
  | .Literal => 0
  | .Addition => 1
  | .Subtract => 2
  | .Multiply => 3
  | .Divide => 4
  | .Modulo => 5
  | .Return => 6
  | .Factorial => 7
  | .Sqrt => 8

/-- `From<u8> for Opcode`: decode a byte, panicking (`none`) on anything
outside the recognized set. -/
def ofByte (b : ℕ) : Option Opcode :=
  if b = 0 then some .Literal
  else if b = 1 then some .Addition
  else if b = 2 then some .Subtract
  else if b = 3 then some .Multiply
  else if b = 4 then some .Divide
  else if b = 5 then some .Modulo
  else if b = 6 then some .Return
  else if b = 7 then some .Factorial
  else if b = 8 then some .Sqrt
  else none

theorem ofByte_toByte (op : Opcode) : ofByte op.toByte = some op := by
  cases op <;> rfl

theorem ofByte_none_iff (b : ℕ) : ofByte b = none ↔ 8 < b := by
  simp only [ofByte]
  split_ifs <;> simp <;> omega

theorem ofByte_return_iff (b : ℕ) : ofByte b = some .Return ↔ b = 6 := by
  simp only [ofByte]
  split_ifs <;> simp_all

end Opcode

/-! ## vm.rs: the dispatch loop -/

/-- `Vm::execute_binary_op`: pop `rhs`, pop `lhs`, push `op lhs rhs`
(fallible: integer division/modulo by zero panics inside the closure). -/
def execute_binary_op (st : Stack) (op : Value → Value → Except VmError Value) :
    Except VmError Stack := do
  let (rhs, st₁) ← st.pop
  let (lhs, st₂) ← st₁.pop
  let v ← op lhs rhs
  st₂.push v

/-- One non-`Literal`, non-`Return` instruction acting on the stack:
the five binary operators, `Factorial` (Int only: the Rust VM panics with
"invalid value type" on a Float operand), and `Sqrt` (Modelled from the
spec §4.3: widen the operand to float and push its principal square
root). -/
def execOp (op : Opcode) (st : Stack) : Except VmError Stack :=
  match op with
  | .Addition => execute_binary_op st Value.add
  | .Subtract => execute_binary_op st Value.sub
  | .Multiply => execute_binary_op st Value.mul
  | .Divide => execute_binary_op st Value.div
  | .Modulo => execute_binary_op st Value.rem
  | .Factorial => do
    let (v, st₁) ← st.pop
    match v with
    | .Int n =>
      match rangeProd n with
      | .error e => .error e
      | .ok r => st₁.push (.Int r)
    | .Float _ => .error .invalidValueType
  | .Sqrt => do
    let (v, st₁) ← st.pop
    st₁.push (.Float (ratSqrt v.toQ))
  | .Literal => .error .invalidOpcode
  | .Return => .error .invalidOpcode

/-- The dispatch loop of `Vm::run`, processing the bytecode from the
current cursor position (the list argument is `bytecode[position..]`).
The fuel argument only bounds the number of iterations so the recursion is
structural; since every iteration consumes at least one byte, fuel equal
to the remaining byte count is always sufficient and the fuel-exhaustion
branch is unreachable from `Vm.run`.  `ok none` models Rust's `None`
(cursor exhausted without `Return`), `ok (some v)` a `Return`, and
`error e` a panic. -/
def runLoop : ℕ → List ℕ → Stack → Except VmError (Option Value)
  | 0, _, _ => .ok none
  | _ + 1, [], _ => .ok none
  | f + 1, b :: rest, st =>
    match Opcode.ofByte b with
    | none => .error .invalidOpcode
    | some .Literal =>
      match Value.fromBytes rest with
      | none => .error .invalidValueType
      | some v =>
        match st.push v with
        | .error e => .error e
        | .ok st₁ => runLoop f (rest.drop v.size) st₁
    | some .Return =>
      match st.pop with
      | .error e => .error e
      | .ok (v, _) => .ok (some v)
    | some op =>
      match execOp op st with
      | .error e => .error e
      | .ok st₁ => runLoop f rest st₁

/-- `Vm::new(bytecode, stack_size)` followed by `Vm::run()`. -/
def Vm.run (bytecode : List ℕ) (stack_size : ℕ) : Except VmError (Option Value) :=
  runLoop bytecode.length bytecode (Stack.new stack_size)

/-! ## compiler.rs: AST, parser and bytecode emitter -/

/-- The AST of `compiler.rs` (`enum Expr`). -/
inductive Expr where
  | Number (v : Value)
  | BinOp (l : Expr) (op : Char) (r : Expr)
  | UnaryOp (op : Char) (e : Expr)
  deriving DecidableEq, Repr

/-- The whitespace recognized by nom's `multispace0`: space, tab,
carriage return, line feed. -/
def isNomSpace (c : Char) : Bool :=
  c = ' ' || c = '\t' || c = '\r' || c = '\n'

/-- Drop leading `multispace0` whitespace. -/
def skipSpaces (l : List Char) : List Char :=
  l.dropWhile isNomSpace

/-- nom's `digit1`: one or more ASCII digits; returns (digits, remaining)
or fails. -/
def digit1 (l : List Char) : Option (List Char × List Char) :=
  match l.takeWhile Char.isDigit with
  | [] => none
  | ds => some (ds, l.dropWhile Char.isDigit)

/-- Decimal digits to a natural number. -/
def digitsToNat (ds : List Char) : ℕ :=
  ds.foldl (fun a c => a * 10 + (c.toNat - 48)) 0

/-- The float alternative of `number`: `recognize(opt('-'), digit1, '.',
digit1)` parsed with `f64::from_str`.  The parse itself never fails; the
decimal value is modelled exactly (IEEE rounding of the literal is outside
the rational model). -/
def floatLit (l : List Char) : Option (List Char × Expr) :=
  let (sgn, l₁) := match l with
    | '-' :: rest => (true, rest)
    | _ => (false, l)
  match digit1 l₁ with
  | none => none
  | some (ip, l₂) =>
    match l₂ with
    | '.' :: l₃ =>
      match digit1 l₃ with
      | none => none
      | some (fp, l₄) =>
        let mag : ℚ := (digitsToNat ip : ℚ) + (digitsToNat fp : ℚ) / ((10 : ℚ) ^ fp.length)
        some (l₄, .Number (.Float (if sgn then -mag else mag)))
    | _ => none

/-- The integer alternative of `number`: `recognize(opt('-'), digit1)`
parsed with `i64::from_str`, which fails (`map_res`) when the value
overflows the `i64` range. -/
def intLit (l : List Char) : Option (List Char × Expr) :=
  let (sgn, l₁) := match l with
    | '-' :: rest => (true, rest)
    | _ => (false, l)
  match digit1 l₁ with
  | none => none
  | some (ds, l₂) =>
    let n : ℤ := if sgn then -(digitsToNat ds : ℤ) else (digitsToNat ds : ℤ)
    if -(2 ^ 63) ≤ n ∧ n < 2 ^ 63 then some (l₂, .Number (.Int n)) else none

/-- `number`: float literal first, else integer literal (nom `alt`). -/
def number (l : List Char) : Option (List Char × Expr) :=
  match floatLit l with
  | some r => some r
  | none => intLit l

/-- `op`: `delimited(multispace0, one_of("+-*/%"), multispace0)`. -/
def opP (l : List Char) : Option (List Char × Char) :=
  match skipSpaces l with
  | [] => none
  | c :: rest =>
    if c = '+' || c = '-' || c = '*' || c = '/' || c = '%' then
      some (skipSpaces rest, c)
    else none

/-! The mutually recursive nom parsers `expr`, `term`, `parens` and the
`fold_many0` loop inside `expr`, made structurally recursive on a fuel
argument.  Every recursive call strictly decreases the fuel and every
cycle through `parens` or through a loop iteration consumes input, so the
generous fuel supplied by `parseExpr` is always sufficient. -/

mutual

/-- `expr := term (binop term)*` — `fold_many0` builds a left-nested tree. -/
def exprP : ℕ → List Char → Option (List Char × Expr)
  | 0, _ => none
  | f + 1, l =>
    match termP f l with
    | none => none
    | some (l₁, t) => some (exprLoopP f t l₁)

/-- The `fold_many0(pair(op, term))` loop: accumulate `BinOp`s
left-associatively; stop (without consuming) when `op` or `term` fails. -/
def exprLoopP : ℕ → Expr → List Char → (List Char × Expr)
  | 0, acc, l => (l, acc)
  | f + 1, acc, l =>
    match opP l with
    | none => (l, acc)
    | some (l₁, c) =>
      match termP f l₁ with
      | none => (l, acc)
      | some (l₂, t) => exprLoopP f (.BinOp acc c t) l₂

/-- `term := multispace0 (number | parens) multispace0 unop?`. -/
def termP : ℕ → List Char → Option (List Char × Expr)
  | 0, _ => none
  | f + 1, l =>
    let l₁ := skipSpaces l
    match (match number l₁ with
           | some r => some r
           | none => parensP f l₁) with
    | none => none
    | some (l₂, e) =>
      match skipSpaces l₂ with
      | [] => some ([], e)
      | c :: rest =>
        if c = '!' then some (rest, .UnaryOp '!' e)
        else if c = '√' then some (rest, .UnaryOp '√' e)
        else some (c :: rest, e)

/-- `parens := '(' multispace0 expr multispace0 ')'`. -/
def parensP : ℕ → List Char → Option (List Char × Expr)
  | 0, _ => none
  | f + 1, l =>
    match l with
    | '(' :: rest =>
      match exprP f (skipSpaces rest) with
      | none => none
      | some (l₁, e) =>
        match skipSpaces l₁ with
        | ')' :: l₂ => some (l₂, e)
        | _ => none
    | _ => none

end

/-- Fuel that is always sufficient for `exprP` on the given input: at most
three fuel units are spent between consecutive character consumptions. -/
def parserFuel (l : List Char) : ℕ := 3 * l.length + 4

/-- The top-level nom entry point `expr(input)` as called by `compile`. -/
def parseExpr (input : String) : Option (List Char × Expr) :=
  exprP (parserFuel input.toList) input.toList

/-- `compile_expr`: post-order walk emitting `Literal` + 9-byte payload
for numbers, operand code then operator opcode for operators.  The Rust
panics on operator symbols outside the closed set are modelled as `none`
(they are unreachable from parser output). -/
def compile_expr : Expr → Option (List ℕ)
  | .Number v => some (Opcode.Literal.toByte :: v.to_vec)
  | .UnaryOp c e => do
    let ce ← compile_expr e
    if c = '!' then some (ce ++ [Opcode.Factorial.toByte])
    else if c = '√' then some (ce ++ [Opcode.Sqrt.toByte])
    else none
  | .BinOp l c r => do
    let cl ← compile_expr l
    let cr ← compile_expr r
    let ob ←
      if c = '+' then some Opcode.Addition.toByte
      else if c = '-' then some Opcode.Subtract.toByte
      else if c = '*' then some Opcode.Multiply.toByte
      else if c = '/' then some Opcode.Divide.toByte
      else if c = '%' then some Opcode.Modulo.toByte
      else none
    some (cl ++ cr ++ [ob])

/-- `compile`: parse (ignoring any unparsed remainder, exactly as the
Rust `let (_, ast) = expr(input)` does), emit the expression's bytecode,
append `Return`. -/
def compile (input : String) : Option (List ℕ) :=
  match parseExpr input with
  | none => none
  | some (_, ast) =>
    match compile_expr ast with
    | none => none
    | some code => some (code ++ [Opcode.Return.toByte])

/-- The full pipeline behind the interactive shell: compile, then run on a
fresh VM (the shell uses stack size 32). -/
def evalString (input : String) (stack_size : ℕ) :
    Option (Except VmError (Option Value)) :=
  (compile input).map (fun code => Vm.run code stack_size)

/-- Denotation of one compiled subexpression acting on the operand stack:
the net effect the bytecode of `e` has when the VM's cursor sweeps it.
Used to relate `compile_expr` and `runLoop` compositionally. -/
def evalOn : Expr → Stack → Except VmError Stack
  | .Number v, st => st.push v.canon
  | .UnaryOp c e, st =>
    match evalOn e st with
    | .error er => .error er
    | .ok st₁ =>
      if c = '!' then execOp .Factorial st₁
      else if c = '√' then execOp .Sqrt st₁
      else .error .invalidOpcode
  | .BinOp l c r, st =>
    match evalOn l st with
    | .error er => .error er
    | .ok st₁ =>
      match evalOn r st₁ with
      | .error er => .error er
      | .ok st₂ =>
        if c = '+' then execOp .Addition st₂
        else if c = '-' then execOp .Subtract st₂
        else if c = '*' then execOp .Multiply st₂
        else if c = '/' then execOp .Divide st₂
        else if c = '%' then execOp .Modulo st₂
        else .error .invalidOpcode

theorem runLoop_nil (f : ℕ) (st : Stack) : runLoop f [] st = .ok none := by
  cases f <;> rfl

theorem runLoop_fuel (f g : ℕ) (code : List ℕ) (st : Stack)
    (hf : code.length ≤ f) (hg : code.length ≤ g) :
    runLoop f code st = runLoop g code st := by
  induction f generalizing g code st with
  | zero =>
    have : code = [] := by
      cases code with
      | nil => rfl
      | cons b rest => simp at hf
    subst this
    rw [runLoop_nil, runLoop_nil]
  | succ f ih =>
    cases code with
    | nil => rw [runLoop_nil, runLoop_nil]
    | cons b rest =>
      cases g with
      | zero => simp at hg
      | succ g =>
        have hrest_f : rest.length ≤ f := by
          simp only [List.length_cons] at hf; omega
        have hrest_g : rest.length ≤ g := by
          simp only [List.length_cons] at hg; omega
        show runLoop (f + 1) (b :: rest) st = runLoop (g + 1) (b :: rest) st
        simp only [runLoop]
        split
        · rfl
        · split
          · rfl
          · split
            · rfl
            · apply ih <;> (rw [List.length_drop]; omega)
        · split
          · rfl
          · rfl
        · split
          · rfl
          · apply ih <;> assumption

theorem Stack.push_spec (st : Stack) (v : Value) :
    (∀ er, st.push v = .error er → er = .stackOverflow) ∧
    (∀ st', st.push v = .ok st' → st'.max = st.max ∧ st'.data = v :: st.data) := by
  constructor
  · intro er h
    simp only [Stack.push] at h
    split at h
    · exact absurd h (by simp)
    · exact (Except.error.injEq _ _).mp h.symm |>.symm ▸ rfl
  · intro st' h
    simp only [Stack.push] at h
    split at h
    · cases h
      exact ⟨rfl, rfl⟩
    · cases h

theorem Stack.pop_spec (st : Stack) :
    (∀ er, st.pop = .error er → er = .stackUnderflow) ∧
    (∀ v st', st.pop = .ok (v, st') → st.data = v :: st'.data ∧ st'.max = st.max) := by
  constructor
  · intro er h
    simp only [Stack.pop] at h
    split at h
    · cases h
      rfl
    · cases h
  · intro v st' h
    simp only [Stack.pop] at h
    split at h
    · cases h
    · cases h
      simp_all

/-- Stack effect of the five binary-operator instructions on a stack with
at least two operands: never an underflow; on success the two operands are
replaced by one result. -/
theorem execOp_binary_spec (op : Opcode)
    (hbin : op = .Addition ∨ op = .Subtract ∨ op = .Multiply ∨
      op = .Divide ∨ op = .Modulo)
    (max : ℕ) (a b : Value) (rest : List Value) :
    (∀ er, execOp op ⟨max, a :: b :: rest⟩ = .error er → er ≠ .stackUnderflow) ∧
    (∀ st', execOp op ⟨max, a :: b :: rest⟩ = .ok st' →
      ∃ v, st' = ⟨max, v :: rest⟩) := by
  have key : ∀ f : Value → Value → Except VmError Value,
      f b a ≠ .error .stackUnderflow →
      (∀ er, execute_binary_op ⟨max, a :: b :: rest⟩ f = .error er →
        er ≠ .stackUnderflow) ∧
      (∀ st', execute_binary_op ⟨max, a :: b :: rest⟩ f = .ok st' →
        ∃ v, st' = ⟨max, v :: rest⟩) := by
    intro f hf
    simp only [execute_binary_op, Stack.pop, Except.bind, bind, Stack.push]
    constructor
    · intro er h
      split at h
      · rename_i e he
        cases h
        intro hcon
        subst hcon
        exact hf he
      · split at h
        · cases h
        · cases h
          simp
    · intro st' h
      split at h
      · cases h
      · split at h
        · cases h
          exact ⟨_, rfl⟩
        · cases h
  rcases hbin with h | h | h | h | h <;> subst h <;> simp only [execOp]
  · refine key Value.add ?_
    intro hcon
    cases b <;> cases a <;> simp only [Value.add] at hcon <;>
      (repeat' split at hcon) <;> simp_all
  · refine key Value.sub ?_
    intro hcon
    cases b <;> cases a <;> simp only [Value.sub] at hcon <;>
      (repeat' split at hcon) <;> simp_all
  · refine key Value.mul ?_
    intro hcon
    cases b <;> cases a <;> simp only [Value.mul] at hcon <;>
      (repeat' split at hcon) <;> simp_all
  · refine key Value.div ?_
    intro hcon
    cases b <;> cases a <;> simp only [Value.div] at hcon <;>
      (repeat' split at hcon) <;> simp_all
  · refine key Value.rem ?_
    intro hcon
    cases b <;> cases a <;> simp only [Value.rem] at hcon <;>
      (repeat' split at hcon) <;> simp_all

/-- Stack effect of `Factorial` and `Sqrt` on a stack with at least one
operand: never an underflow; on success the operand is replaced by one
result. -/
theorem execOp_unary_spec (op : Opcode) (hun : op = .Factorial ∨ op = .Sqrt)
    (max : ℕ) (a : Value) (rest : List Value) :
    (∀ er, execOp op ⟨max, a :: rest⟩ = .error er → er ≠ .stackUnderflow) ∧
    (∀ st', execOp op ⟨max, a :: rest⟩ = .ok st' →
      ∃ v, st' = ⟨max, v :: rest⟩) := by
  rcases hun with h | h <;> subst h
  · simp only [execOp, Stack.pop, Except.bind, bind, Stack.push]
    constructor
    · intro er h
      cases a with
      | Int n =>
        simp only at h
        split at h
        · rename_i e heq
          cases h
          have hov := rangeProd_error n _ heq
          simp [hov]
        · split at h
          · cases h
          · cases h
            simp
      | Float q =>
        simp only at h
        cases h
        simp
    · intro st' h
      cases a with
      | Int n =>
        simp only at h
        split at h
        · cases h
        · split at h
          · cases h
            exact ⟨_, rfl⟩
          · cases h
      | Float q =>
        simp only at h
        cases h
  · simp only [execOp, Stack.pop, Except.bind, bind, Stack.push]
    constructor
    · intro er h
      split at h
      · cases h
      · cases h
        simp
    · intro st' h
      split at h
      · cases h
        exact ⟨_, rfl⟩
      · cases h

theorem runLoop_lit (f : ℕ) (rest : List ℕ) (st : Stack) :
    runLoop (f + 1) (Opcode.Literal.toByte :: rest) st =
      match Value.fromBytes rest with
      | none => .error .invalidValueType
      | some v =>
        match st.push v with
        | .error e => .error e
        | .ok st₁ => runLoop f (rest.drop v.size) st₁ := rfl

theorem runLoop_ret (f : ℕ) (rest : List ℕ) (st : Stack) :
    runLoop (f + 1) (Opcode.Return.toByte :: rest) st =
      match st.pop with
      | .error e => .error e
      | .ok (v, _) => .ok (some v) := rfl

theorem runLoop_exec (f : ℕ) (op : Opcode) (hop : op ≠ .Literal ∧ op ≠ .Return)
    (rest : List ℕ) (st : Stack) :
    runLoop (f + 1) (op.toByte :: rest) st =
      match execOp op st with
      | .error e => .error e
      | .ok st₁ => runLoop f rest st₁ := by
  cases op <;> first
    | rfl
    | exact absurd rfl hop.1
    | exact absurd rfl hop.2

/-- The central compiler/VM correspondence: sweeping the bytecode of one
subexpression (followed by anything) performs exactly the subexpression's
denotational stack effect, then continues with the remainder. -/
theorem runLoop_append (e : Expr) (code rest : List ℕ) (st : Stack) (fuel : ℕ)
    (hc : compile_expr e = some code)
    (hf : (code ++ rest).length ≤ fuel) :
    runLoop fuel (code ++ rest) st =
      match evalOn e st with
      | .error er => .error er
      | .ok st' => runLoop rest.length rest st' := by
  induction e generalizing code rest st fuel with
  | Number v =>
    simp only [compile_expr] at hc
    cases hc
    obtain ⟨f, rfl⟩ : ∃ f, fuel = f + 1 := by
      cases fuel with
      | zero => simp at hf
      | succ f => exact ⟨_, rfl⟩
    have hfrest : rest.length ≤ f := by
      simp only [List.cons_append, List.length_cons, List.length_append,
        Value.to_vec_length] at hf
      omega
    rw [List.cons_append, runLoop_lit, Value.fromBytes_to_vec]
    show (match st.push v.canon with
      | Except.error e => Except.error e
      | Except.ok st₁ =>
        runLoop f ((v.to_vec ++ rest).drop v.canon.size) st₁) = _
    simp only [evalOn]
    cases hp : st.push v.canon with
    | error e => rfl
    | ok st₁ =>
      show runLoop f ((v.to_vec ++ rest).drop v.canon.size) st₁ =
        runLoop rest.length rest st₁
      rw [Value.size_eq, ← Value.to_vec_length v, List.drop_left]
      exact runLoop_fuel _ _ _ _ hfrest le_rfl
  | UnaryOp c e ih =>
    cases hce : compile_expr e with
    | none =>
      simp only [compile_expr, hce, bind, Option.bind] at hc
      cases hc
    | some ce =>
      simp only [compile_expr, hce, bind, Option.bind] at hc
      by_cases hbang : c = '!'
      · subst hbang
        rw [if_pos rfl] at hc
        cases hc
        rw [List.append_assoc]
        rw [ih ce _ st fuel hce (by simpa [List.append_assoc] using hf)]
        show (match evalOn e st with
          | Except.error er => Except.error er
          | Except.ok st' => runLoop (Opcode.Factorial.toByte :: rest).length
              (Opcode.Factorial.toByte :: rest) st') =
          match (match evalOn e st with
            | Except.error er => (Except.error er : Except VmError Stack)
            | Except.ok st₁ => execOp Opcode.Factorial st₁) with
          | Except.error er => Except.error er
          | Except.ok st' => runLoop rest.length rest st'
        cases hev : evalOn e st with
        | error er => rfl
        | ok st₁ =>
          show runLoop (Opcode.Factorial.toByte :: rest).length
              (Opcode.Factorial.toByte :: rest) st₁ =
            match execOp Opcode.Factorial st₁ with
            | Except.error er => Except.error er
            | Except.ok st' => runLoop rest.length rest st'
          rw [List.length_cons]
          exact runLoop_exec _ Opcode.Factorial (by simp) rest st₁
      · rw [if_neg hbang] at hc
        by_cases hsqrt : c = '√'
        · subst hsqrt
          rw [if_pos rfl] at hc
          cases hc
          rw [List.append_assoc]
          rw [ih ce _ st fuel hce (by simpa [List.append_assoc] using hf)]
          show (match evalOn e st with
            | Except.error er => Except.error er
            | Except.ok st' => runLoop (Opcode.Sqrt.toByte :: rest).length
                (Opcode.Sqrt.toByte :: rest) st') =
            match (match evalOn e st with
              | Except.error er => (Except.error er : Except VmError Stack)
              | Except.ok st₁ => execOp Opcode.Sqrt st₁) with
            | Except.error er => Except.error er
            | Except.ok st' => runLoop rest.length rest st'
          cases hev : evalOn e st with
          | error er => rfl
          | ok st₁ =>
            show runLoop (Opcode.Sqrt.toByte :: rest).length
                (Opcode.Sqrt.toByte :: rest) st₁ =
              match execOp Opcode.Sqrt st₁ with
              | Except.error er => Except.error er
              | Except.ok st' => runLoop rest.length rest st'
            rw [List.length_cons]
            exact runLoop_exec _ Opcode.Sqrt (by simp) rest st₁
        · rw [if_neg hsqrt] at hc
          cases hc
  | BinOp l c r ihl ihr =>
    cases hcl : compile_expr l with
    | none =>
      simp only [compile_expr, hcl, bind, Option.bind] at hc
      cases hc
    | some cl =>
      cases hcr : compile_expr r with
      | none =>
        simp only [compile_expr, hcl, hcr, bind, Option.bind] at hc
        cases hc
      | some cr =>
        simp only [compile_expr, hcl, hcr, bind, Option.bind] at hc
        have main : ∀ op : Opcode, op ≠ .Literal ∧ op ≠ .Return →
            (cl ++ (cr ++ (op.toByte :: rest))).length ≤ fuel →
            runLoop fuel ((cl ++ cr ++ [op.toByte]) ++ rest) st =
              match (match evalOn l st with
                | Except.error er => (Except.error er : Except VmError Stack)
                | Except.ok st₁ =>
                  match evalOn r st₁ with
                  | Except.error er => (Except.error er : Except VmError Stack)
                  | Except.ok st₂ => execOp op st₂) with
              | Except.error er => Except.error er
              | Except.ok st' => runLoop rest.length rest st' := by
          intro op hop hlen
          rw [show (cl ++ cr ++ [op.toByte]) ++ rest =
            cl ++ (cr ++ (op.toByte :: rest)) from by simp]
          rw [ihl cl _ st fuel hcl hlen]
          cases hev1 : evalOn l st with
          | error er => rfl
          | ok st₁ =>
            show runLoop (cr ++ (op.toByte :: rest)).length
                (cr ++ (op.toByte :: rest)) st₁ =
              match (match evalOn r st₁ with
                | Except.error er => (Except.error er : Except VmError Stack)
                | Except.ok st₂ => execOp op st₂) with
              | Except.error er => Except.error er
              | Except.ok st' => runLoop rest.length rest st'
            rw [ihr cr (op.toByte :: rest) st₁ _ hcr le_rfl]
            cases hev2 : evalOn r st₁ with
            | error er => rfl
            | ok st₂ =>
              show runLoop (op.toByte :: rest).length (op.toByte :: rest) st₂ =
                match execOp op st₂ with
                | Except.error er => Except.error er
                | Except.ok st' => runLoop rest.length rest st'
              rw [List.length_cons]
              exact runLoop_exec _ op hop rest st₂
        by_cases h1 : c = '+'
        · subst h1
          rw [if_pos rfl] at hc
          cases hc
          rw [main Opcode.Addition (by simp) (by
            simp only [List.append_assoc, List.cons_append, List.nil_append] at hf ⊢
            exact hf)]
          rfl
        · rw [if_neg h1] at hc
          by_cases h2 : c = '-'
          · subst h2
            rw [if_pos rfl] at hc
            cases hc
            rw [main Opcode.Subtract (by simp) (by
              simp only [List.append_assoc, List.cons_append, List.nil_append] at hf ⊢
              exact hf)]
            rfl
          · rw [if_neg h2] at hc
            by_cases h3 : c = '*'
            · subst h3
              rw [if_pos rfl] at hc
              cases hc
              rw [main Opcode.Multiply (by simp) (by
                simp only [List.append_assoc, List.cons_append, List.nil_append] at hf ⊢
                exact hf)]
              rfl
            · rw [if_neg h3] at hc
              by_cases h4 : c = '/'
              · subst h4
                rw [if_pos rfl] at hc
                cases hc
                rw [main Opcode.Divide (by simp) (by
                  simp only [List.append_assoc, List.cons_append, List.nil_append] at hf ⊢
                  exact hf)]
                rfl
              · rw [if_neg h4] at hc
                by_cases h5 : c = '%'
                · subst h5
                  rw [if_pos rfl] at hc
                  cases hc
                  rw [main Opcode.Modulo (by simp) (by
                    simp only [List.append_assoc, List.cons_append, List.nil_append] at hf ⊢
                    exact hf)]
                  rfl
                · rw [if_neg h5] at hc
                  cases hc

/-- The denotational stack effect never underflows and, on success, grows
the stack by exactly one value (keeping its capacity). -/
theorem evalOn_spec (e : Expr) (st : Stack) :
    (∀ er, evalOn e st = .error er → er ≠ .stackUnderflow) ∧
    (∀ st', evalOn e st = .ok st' →
      st'.max = st.max ∧ st'.data.length = st.data.length + 1) := by
  induction e generalizing st with
  | Number v =>
    simp only [evalOn]
    refine ⟨fun er h => ?_, fun st' h => ?_⟩
    · have := (Stack.push_spec st v.canon).1 er h
      subst this
      simp
    · have := (Stack.push_spec st v.canon).2 st' h
      rw [this.2]
      exact ⟨this.1, by simp⟩
  | UnaryOp c e ih =>
    refine ⟨fun er h => ?_, fun st' h => ?_⟩
    · simp only [evalOn] at h
      split at h
      · rename_i er₁ he
        cases h
        exact (ih st).1 _ he
      · rename_i st₁ he
        obtain ⟨hm, hlen⟩ := (ih st).2 st₁ he
        obtain ⟨mx, a, tl, rfl⟩ : ∃ mx a tl, st₁ = ⟨mx, a :: tl⟩ := by
          obtain ⟨mx, data⟩ := st₁
          cases data with
          | nil => exact absurd hlen (by simp)
          | cons a tl => exact ⟨mx, a, tl, rfl⟩
        split at h
        · exact (execOp_unary_spec .Factorial (Or.inl rfl) mx a tl).1 er h
        · split at h
          · exact (execOp_unary_spec .Sqrt (Or.inr rfl) mx a tl).1 er h
          · cases h
            simp
    · simp only [evalOn] at h
      split at h
      · cases h
      · rename_i st₁ he
        obtain ⟨hm, hlen⟩ := (ih st).2 st₁ he
        obtain ⟨mx, a, tl, rfl⟩ : ∃ mx a tl, st₁ = ⟨mx, a :: tl⟩ := by
          obtain ⟨mx, data⟩ := st₁
          cases data with
          | nil => exact absurd hlen (by simp)
          | cons a tl => exact ⟨mx, a, tl, rfl⟩
        simp only [List.length_cons] at hlen
        split at h
        · obtain ⟨v, rfl⟩ := (execOp_unary_spec .Factorial (Or.inl rfl) mx a tl).2 st' h
          simp_all
        · split at h
          · obtain ⟨v, rfl⟩ := (execOp_unary_spec .Sqrt (Or.inr rfl) mx a tl).2 st' h
            simp_all
          · cases h
  | BinOp l c r ihl ihr =>
    have step : ∀ op : Opcode,
        (op = .Addition ∨ op = .Subtract ∨ op = .Multiply ∨
          op = .Divide ∨ op = .Modulo) →
        ∀ st₂ : Stack, st₂.data.length = st.data.length + 2 →
        (∀ er, execOp op st₂ = .error er → er ≠ .stackUnderflow) ∧
        (∀ st', execOp op st₂ = .ok st' →
          st'.max = st₂.max ∧ st'.data.length = st.data.length + 1) := by
      intro op hbin st₂ hlen
      obtain ⟨mx, a, b, tl, rfl⟩ : ∃ mx a b tl, st₂ = ⟨mx, a :: b :: tl⟩ := by
        obtain ⟨mx, data⟩ := st₂
        cases data with
        | nil => exact absurd hlen (by simp)
        | cons a data' =>
          cases data' with
          | nil => simp at hlen
          | cons b tl => exact ⟨mx, a, b, tl, rfl⟩
      refine ⟨(execOp_binary_spec op hbin mx a b tl).1, fun st' h => ?_⟩
      obtain ⟨v, rfl⟩ := (execOp_binary_spec op hbin mx a b tl).2 st' h
      simp only [List.length_cons] at hlen
      exact ⟨rfl, by simp only [List.length_cons]; omega⟩
    refine ⟨fun er h => ?_, fun st' h => ?_⟩
    · simp only [evalOn] at h
      split at h
      · rename_i er₁ he
        cases h
        exact (ihl st).1 _ he
      · rename_i st₁ he₁
        obtain ⟨hm₁, hlen₁⟩ := (ihl st).2 st₁ he₁
        split at h
        · rename_i er₂ he₂
          cases h
          exact (ihr st₁).1 _ he₂
        · rename_i st₂ he₂
          obtain ⟨hm₂, hlen₂⟩ := (ihr st₁).2 st₂ he₂
          have hl2 : st₂.data.length = st.data.length + 2 := by omega
          split at h
          · exact (step .Addition (by simp) st₂ hl2).1 er h
          · split at h
            · exact (step .Subtract (by simp) st₂ hl2).1 er h
            · split at h
              · exact (step .Multiply (by simp) st₂ hl2).1 er h
              · split at h
                · exact (step .Divide (by simp) st₂ hl2).1 er h
                · split at h
                  · exact (step .Modulo (by simp) st₂ hl2).1 er h
                  · cases h
                    simp
    · simp only [evalOn] at h
      split at h
      · cases h
      · rename_i st₁ he₁
        obtain ⟨hm₁, hlen₁⟩ := (ihl st).2 st₁ he₁
        split at h
        · cases h
        · rename_i st₂ he₂
          obtain ⟨hm₂, hlen₂⟩ := (ihr st₁).2 st₂ he₂
          have hl2 : st₂.data.length = st.data.length + 2 := by omega
          have hmax : st₂.max = st.max := by rw [hm₂, hm₁]
          split at h
          · obtain ⟨h1, h2⟩ := (step .Addition (by simp) st₂ hl2).2 st' h
            exact ⟨by rw [h1, hmax], h2⟩
          · split at h
            · obtain ⟨h1, h2⟩ := (step .Subtract (by simp) st₂ hl2).2 st' h
              exact ⟨by rw [h1, hmax], h2⟩
            · split at h
              · obtain ⟨h1, h2⟩ := (step .Multiply (by simp) st₂ hl2).2 st' h
                exact ⟨by rw [h1, hmax], h2⟩
              · split at h
                · obtain ⟨h1, h2⟩ := (step .Divide (by simp) st₂ hl2).2 st' h
                  exact ⟨by rw [h1, hmax], h2⟩
                · split at h
                  · obtain ⟨h1, h2⟩ := (step .Modulo (by simp) st₂ hl2).2 st' h
                    exact ⟨by rw [h1, hmax], h2⟩
                  · cases h

/-- Running the bytecode of one expression plus the trailing `Return`:
perform the expression's stack effect on the fresh stack, then `Return`
pops the result. -/
theorem run_compiled_expr (e : Expr) (ce : List ℕ) (ms : ℕ)
    (hc : compile_expr e = some ce) :
    Vm.run (ce ++ [Opcode.Return.toByte]) ms =
      match evalOn e (Stack.new ms) with
      | .error er => .error er
      | .ok st' =>
        match st'.pop with
        | .error er => .error er
        | .ok (v, _) => .ok (some v) := by
  show runLoop (ce ++ [Opcode.Return.toByte]).length (ce ++ [Opcode.Return.toByte])
    (Stack.new ms) = _
  rw [runLoop_append e ce [Opcode.Return.toByte] (Stack.new ms) _ hc le_rfl]
  cases hev : evalOn e (Stack.new ms) with
  | error er => rfl
  | ok st' =>
    show runLoop [Opcode.Return.toByte].length [Opcode.Return.toByte] st' = _
    rw [show [Opcode.Return.toByte].length = 0 + 1 from rfl, runLoop_ret]

/-- Decompose a successful `compile`: a successful parse (whose unparsed
remainder is discarded), a successful emit, and the trailing `Return`. -/
theorem compile_decomp (input : String) (code : List ℕ)
    (hc : compile input = some code) :
    ∃ rem ast ce, parseExpr input = some (rem, ast) ∧
      compile_expr ast = some ce ∧ code = ce ++ [Opcode.Return.toByte] := by
  simp only [compile] at hc
  cases hp : parseExpr input with
  | none =>
    simp only [hp] at hc
    cases hc
  | some p =>
    rw [hp] at hc
    obtain ⟨rem, ast⟩ := p
    cases hce : compile_expr ast with
    | none =>
      simp only [hce] at hc
      cases hc
    | some ce =>
      simp only [hce] at hc
      cases hc
      exact ⟨rem, ast, ce, rfl, hce, rfl⟩

/-- A successful evaluation of a compiled expression on a fresh stack
leaves exactly the one result value. -/
theorem evalOn_new_shape (e : Expr) (ms : ℕ) (st' : Stack)
    (h : evalOn e (Stack.new ms) = .ok st') :
    ∃ v, st'.data = [v] ∧ st'.max = ms := by
  obtain ⟨hm, hlen⟩ := (evalOn_spec e (Stack.new ms)).2 st' h
  simp only [Stack.new, List.length_nil] at hm hlen
  obtain ⟨mx, data⟩ := st'
  cases data with
  | nil => simp at hlen
  | cons a tl =>
    cases tl with
    | nil => exact ⟨a, rfl, hm⟩
    | cons b tl' => simp at hlen

/-- The sequence of `(operator, term)` pairs that `fold_many0(pair(op,
term))` consumes, together with the remaining input: the loop's trace. -/
def collectPairs : ℕ → List Char → (List Char × List (Char × Expr))
  | 0, l => (l, [])
  | f + 1, l =>
    match opP l with
    | none => (l, [])
    | some (l₁, c) =>
      match termP f l₁ with
      | none => (l, [])
      | some (l₂, t) =>
        let r := collectPairs f l₂
        (r.1, (c, t) :: r.2)

/-- The `fold_many0` loop of `expr` builds exactly the left fold of
`BinOp` over the pairs it consumes: the left-nested tree. -/
theorem exprLoopP_eq_foldl (f : ℕ) (acc : Expr) (l : List Char) :
    exprLoopP f acc l =
      ((collectPairs f l).1,
        (collectPairs f l).2.foldl (fun a p => Expr.BinOp a p.1 p.2) acc) := by
  induction f generalizing acc l with
  | zero => rfl
  | succ f ih =>
    simp only [exprLoopP, collectPairs]
    cases opP l with
    | none => rfl
    | some p =>
      obtain ⟨l₁, c⟩ := p
      show (match termP f l₁ with
        | none => (l, acc)
        | some (l₂, t) => exprLoopP f (Expr.BinOp acc c t) l₂) =
        ((match termP f l₁ with
          | none => (l, ([] : List (Char × Expr)))
          | some (l₂, t) =>
            ((collectPairs f l₂).1, (c, t) :: (collectPairs f l₂).2)).1,
         List.foldl (fun a p => Expr.BinOp a p.1 p.2) acc
           (match termP f l₁ with
             | none => (l, ([] : List (Char × Expr)))
             | some (l₂, t) =>
               ((collectPairs f l₂).1, (c, t) :: (collectPairs f l₂).2)).2)
      cases termP f l₁ with
      | none => rfl
      | some q =>
        obtain ⟨l₂, t⟩ := q
        show exprLoopP f (Expr.BinOp acc c t) l₂ = _
        rw [ih]
        rfl

/-- Truncating remainder negates with the dividend. -/
theorem tmod_neg_left (a b : ℤ) : (-a).tmod b = -(a.tmod b) := by
  rw [Int.tmod_def, Int.tmod_def, Int.neg_tdiv]
  ring

/-- The truncating remainder is strictly smaller than the divisor in
absolute value. -/
theorem abs_tmod_lt (a b : ℤ) (hb : b ≠ 0) : |a.tmod b| < |b| := by
  have key : ∀ x y : ℤ, 0 < y → |x.tmod y| < y := by
    intro x y hy
    rcases le_or_lt 0 x with hx | hx
    · rw [abs_of_nonneg (Int.tmod_nonneg y hx)]
      exact Int.tmod_lt_of_pos x hy
    · have h1 : x.tmod y = -((-x).tmod y) := by
        rw [tmod_neg_left, neg_neg]
      have h2 : 0 ≤ (-x).tmod y := Int.tmod_nonneg y (by omega)
      have h3 : (-x).tmod y < y := Int.tmod_lt_of_pos (-x) hy
      rw [h1, abs_neg, abs_of_nonneg h2]
      exact h3
  rcases lt_or_gt_of_ne hb with hneg | hpos
  · have h := key a (-b) (by omega)
    rw [Int.tmod_neg] at h
    rw [abs_of_neg hneg]
    exact h
  · rw [abs_of_pos hpos]
    exact key a b hpos

/-- The truncating remainder carries the sign of the dividend. -/
theorem tmod_sign_dividend (a b : ℤ) :
    (0 ≤ a → 0 ≤ a.tmod b) ∧ (a ≤ 0 → a.tmod b ≤ 0) := by
  refine ⟨fun ha => Int.tmod_nonneg b ha, fun ha => ?_⟩
  have h : a.tmod b = -((-a).tmod b) := by rw [tmod_neg_left, neg_neg]
  have h2 : 0 ≤ (-a).tmod b := Int.tmod_nonneg b (by omega)
  omega

/-! ## The parser only emits compilable ASTs -/

/-- `floatLit` always produces a `Number` leaf. -/
theorem floatLit_shape (l l' : List Char) (e : Expr)
    (h : floatLit l = some (l', e)) : ∃ v, e = .Number v := by
  simp only [floatLit] at h
  repeat' split at h
  all_goals first
    | (cases h; exact ⟨_, rfl⟩)
    | cases h

/-- `intLit` always produces a `Number` leaf. -/
theorem intLit_shape (l l' : List Char) (e : Expr)
    (h : intLit l = some (l', e)) : ∃ v, e = .Number v := by
  unfold intLit at h
  split at h
  all_goals
  · split at h
    · cases h
    · split at h <;>
      · simp only [] at h
        split at h
        · cases h
          exact ⟨_, rfl⟩
        · cases h

/-- `number` always produces a `Number` leaf. -/
theorem number_shape (l l' : List Char) (e : Expr)
    (h : number l = some (l', e)) : ∃ v, e = .Number v := by
  simp only [number] at h
  split at h
  · rename_i p hf
    cases h
    exact floatLit_shape _ _ _ hf
  · exact intLit_shape _ _ _ h

/-- `op` only accepts the five operator characters. -/
theorem opP_chars (l l' : List Char) (c : Char) (h : opP l = some (l', c)) :
    c = '+' ∨ c = '-' ∨ c = '*' ∨ c = '/' ∨ c = '%' := by
  simp only [opP] at h
  split at h
  · cases h
  · split at h
    · rename_i hc
      cases h
      simp only [Bool.or_eq_true, decide_eq_true_eq] at hc
      tauto
    · cases h

/-- `compile_expr` succeeds on the two unary nodes the parser can build. -/
theorem compile_expr_unary (e : Expr) (h : (compile_expr e).isSome = true) :
    (compile_expr (.UnaryOp '!' e)).isSome = true ∧
    (compile_expr (Expr.UnaryOp '√' e)).isSome = true := by
  cases he : compile_expr e with
  | none => rw [he] at h; cases h
  | some ce =>
    refine ⟨?_, ?_⟩ <;>
    · simp only [compile_expr, he]
      with_unfolding_all rfl

/-- `compile_expr` succeeds on a `BinOp` node carrying one of the five
operator characters and two compilable children. -/
theorem compile_expr_binop (a b : Expr) (c : Char)
    (hc : c = '+' ∨ c = '-' ∨ c = '*' ∨ c = '/' ∨ c = '%')
    (ha : (compile_expr a).isSome = true)
    (hb : (compile_expr b).isSome = true) :
    (compile_expr (.BinOp a c b)).isSome = true := by
  cases hea : compile_expr a with
  | none => rw [hea] at ha; cases ha
  | some ca =>
    cases heb : compile_expr b with
    | none => rw [heb] at hb; cases hb
    | some cb =>
      rcases hc with h | h | h | h | h <;> subst h <;>
        simp [compile_expr, hea, heb]

/-- Every AST any of the four mutually recursive parsers can return (at
any fuel) is accepted by `compile_expr`: the operator symbols are drawn
from the closed sets, so the emitter's panic arms are unreachable. -/
theorem parser_emits_compilable :
    ∀ f : ℕ,
    (∀ l l' e, exprP f l = some (l', e) → (compile_expr e).isSome = true) ∧
    (∀ acc l l' e, (compile_expr acc).isSome = true →
      exprLoopP f acc l = (l', e) → (compile_expr e).isSome = true) ∧
    (∀ l l' e, termP f l = some (l', e) → (compile_expr e).isSome = true) ∧
    (∀ l l' e, parensP f l = some (l', e) → (compile_expr e).isSome = true)
  | 0 => by
    refine ⟨?_, ?_, ?_, ?_⟩
    · intro l l' e h
      cases h
    · intro acc l l' e hacc h
      simp only [exprLoopP] at h
      injection h with h1 h2
      subst h2
      exact hacc
    · intro l l' e h
      cases h
    · intro l l' e h
      cases h
  | f + 1 => by
    obtain ⟨ihE, ihL, ihT, ihP⟩ := parser_emits_compilable f
    refine ⟨?_, ?_, ?_, ?_⟩
    · intro l l' e h
      simp only [exprP] at h
      split at h
      · cases h
      · rename_i l₁ t ht
        injection h with h'
        exact ihL t l₁ l' e (ihT l l₁ t ht) h'
    · intro acc l l' e hacc h
      simp only [exprLoopP] at h
      split at h
      · injection h with h1 h2
        subst h2
        exact hacc
      · rename_i l₁ c hop
        split at h
        · injection h with h1 h2
          subst h2
          exact hacc
        · rename_i l₂ t ht
          exact ihL _ _ _ _
            (compile_expr_binop acc t c (opP_chars l l₁ c hop) hacc
              (ihT l₁ l₂ t ht)) h
    · intro l l' e h
      simp only [termP] at h
      split at h
      · cases h
      · rename_i l₂ e₀ hne
        have he₀ : (compile_expr e₀).isSome = true := by
          cases hn : number (skipSpaces l) with
          | none =>
            rw [hn] at hne
            exact ihP _ _ _ hne
          | some p =>
            obtain ⟨l₂', e₀'⟩ := p
            rw [hn] at hne
            injection hne with hp
            injection hp with hp1 hp2
            obtain ⟨v, hv⟩ := number_shape _ _ _ hn
            rw [← hp2, hv]
            rfl
        split at h
        · cases h
          exact he₀
        · split at h
          · cases h
            exact (compile_expr_unary e₀ he₀).1
          · split at h
            · cases h
              exact (compile_expr_unary e₀ he₀).2
            · cases h
              exact he₀
    · intro l l' e h
      simp only [parensP] at h
      split at h
      · rename_i rest
        split at h
        · cases h
        · rename_i l₁ e₁ he₁
          split at h
          · cases h
            exact ihE _ _ _ he₁
          · cases h
      · cases h

/-- `compile` fails exactly when the leading-expression parse fails: for
every successfully parsed AST the emitter succeeds, so the appended
`Return` always materializes. -/
theorem compile_none_iff (input : String) :
    compile input = none ↔ parseExpr input = none := by
  constructor
  · intro h
    cases hp : parseExpr input with
    | none => rfl
    | some p =>
      obtain ⟨rem, ast⟩ := p
      have hc := (parser_emits_compilable (parserFuel input.toList)).1 _ _ _ hp
      cases hce : compile_expr ast with
      | none => rw [hce] at hc; cases hc
      | some code => simp [compile, hp, hce] at h
  · intro h
    simp [compile, h]

/-! ## The claims -/

/-- C3 (corrected): For each binary operator in {+, -, *, /, %} applied to
two Values: Integer∘Integer follows native i64 semantics — addition,
subtraction and multiplication yield the exact Integer whenever it fits in
i64 and abort with the overflow panic otherwise (the crate's checked
profile; release-mode Rust would wrap); division and remainder, for a
nonzero divisor and away from the lone overflowing pair (i64::MIN, -1),
yield the truncating quotient and the dividend-signed remainder
(characterized by `a = b*q + r`, `|r| < |b|`, `r` signed like `a`);
Float∘Float yields a Float, and any Integer/Float mix widens both operands
to Float and yields a Float. -/
theorem claim_C3 :
    (∀ a b : ℤ,
      (-(2 ^ 63) ≤ a + b ∧ a + b < 2 ^ 63 →
        Value.add (.Int a) (.Int b) = .ok (.Int (a + b))) ∧
      (¬(-(2 ^ 63) ≤ a + b ∧ a + b < 2 ^ 63) →
        Value.add (.Int a) (.Int b) = .error .intOverflow) ∧
      (-(2 ^ 63) ≤ a - b ∧ a - b < 2 ^ 63 →
        Value.sub (.Int a) (.Int b) = .ok (.Int (a - b))) ∧
      (¬(-(2 ^ 63) ≤ a - b ∧ a - b < 2 ^ 63) →
        Value.sub (.Int a) (.Int b) = .error .intOverflow) ∧
      (-(2 ^ 63) ≤ a * b ∧ a * b < 2 ^ 63 →
        Value.mul (.Int a) (.Int b) = .ok (.Int (a * b))) ∧
      (¬(-(2 ^ 63) ≤ a * b ∧ a * b < 2 ^ 63) →
        Value.mul (.Int a) (.Int b) = .error .intOverflow)) ∧
    (∀ a b : ℤ, b ≠ 0 → ¬(a = -(2 ^ 63) ∧ b = -1) → ∃ q r : ℤ,
      Value.div (.Int a) (.Int b) = .ok (.Int q) ∧
      Value.rem (.Int a) (.Int b) = .ok (.Int r) ∧
      a = b * q + r ∧ |r| < |b| ∧ (0 ≤ a → 0 ≤ r) ∧ (a ≤ 0 → r ≤ 0)) ∧
    (∀ x y : ℚ,
      Value.add (.Float x) (.Float y) = .ok (.Float (x + y)) ∧
      Value.sub (.Float x) (.Float y) = .ok (.Float (x - y)) ∧
      Value.mul (.Float x) (.Float y) = .ok (.Float (x * y)) ∧
      Value.div (.Float x) (.Float y) = .ok (.Float (x / y)) ∧
      Value.rem (.Float x) (.Float y) = .ok (.Float (qrem x y))) ∧
    (∀ (a : ℤ) (y : ℚ),
      Value.add (.Int a) (.Float y) = .ok (.Float ((a : ℚ) + y)) ∧
      Value.add (.Float y) (.Int a) = .ok (.Float (y + (a : ℚ))) ∧
      Value.sub (.Int a) (.Float y) = .ok (.Float ((a : ℚ) - y)) ∧
      Value.sub (.Float y) (.Int a) = .ok (.Float (y - (a : ℚ))) ∧
      Value.mul (.Int a) (.Float y) = .ok (.Float ((a : ℚ) * y)) ∧
      Value.mul (.Float y) (.Int a) = .ok (.Float (y * (a : ℚ))) ∧
      Value.div (.Int a) (.Float y) = .ok (.Float ((a : ℚ) / y)) ∧
      Value.div (.Float y) (.Int a) = .ok (.Float (y / (a : ℚ))) ∧
      Value.rem (.Int a) (.Float y) = .ok (.Float (qrem (a : ℚ) y)) ∧
      Value.rem (.Float y) (.Int a) = .ok (.Float (qrem y (a : ℚ)))) := by
  refine ⟨fun a b => ⟨?_, ?_, ?_, ?_, ?_, ?_⟩, fun a b hb hmo => ?_,
    fun x y => ⟨rfl, rfl, rfl, rfl, rfl⟩,
    fun a y => ⟨rfl, rfl, rfl, rfl, rfl, rfl, rfl, rfl, rfl, rfl⟩⟩
  · intro h; simp only [Value.add]; rw [if_pos h]
  · intro h; simp only [Value.add]; rw [if_neg h]
  · intro h; simp only [Value.sub]; rw [if_pos h]
  · intro h; simp only [Value.sub]; rw [if_neg h]
  · intro h; simp only [Value.mul]; rw [if_pos h]
  · intro h; simp only [Value.mul]; rw [if_neg h]
  · refine ⟨a.tdiv b, a.tmod b, ?_, ?_, ?_, abs_tmod_lt a b hb,
      (tmod_sign_dividend a b).1, (tmod_sign_dividend a b).2⟩
    · simp only [Value.div]; rw [if_neg hb, if_neg hmo]
    · simp only [Value.rem]; rw [if_neg hb, if_neg hmo]
    · have h := Int.tdiv_add_tmod a b
      linarith

/-- C3 counterexample: the claim's unconditional "Integer∘Integer yields
an Integer" fails — `i64::MIN / -1` and `i64::MIN % -1` panic in every
build profile, and `2^62 + 2^62` overflow-panics in the crate's checked
profile (release would wrap), so no Integer result is produced. -/
theorem claim_C3_counterexample :
    Value.div (.Int (-(2 ^ 63))) (.Int (-1)) = .error .intOverflow ∧
    Value.rem (.Int (-(2 ^ 63))) (.Int (-1)) = .error .intOverflow ∧
    Value.add (.Int (2 ^ 62)) (.Int (2 ^ 62)) = .error .intOverflow := by
  refine ⟨?_, ?_, ?_⟩ <;> with_unfolding_all rfl

/-- Witness for C3 at 2 + 3 (in range) and at a = -7, b = 3 (truncating:
q = -2, r = -1). -/
theorem claim_C3_witness :
    Value.add (.Int 2) (.Int 3) = .ok (.Int (2 + 3)) ∧
    ∃ q r : ℤ,
      Value.div (.Int (-7)) (.Int 3) = .ok (.Int q) ∧
      Value.rem (.Int (-7)) (.Int 3) = .ok (.Int r) ∧
      (-7 : ℤ) = 3 * q + r ∧ |r| < |(3 : ℤ)| ∧
      (0 ≤ (-7 : ℤ) → 0 ≤ r) ∧ ((-7 : ℤ) ≤ 0 → r ≤ 0) :=
  ⟨(claim_C3.1 2 3).1 (by norm_num),
    claim_C3.2.1 (-7) 3 (by norm_num) (by norm_num)⟩

/-- C5 (corrected): the Factorial operation on an Integer operand n
computes the product of the ascending range 1..n with native i64
multiplications — 1 (the empty product) for n = 0 and for every negative
n, and n! for 0 ≤ n ≤ 20; for every n ≥ 21 the running product leaves the
i64 range and the VM aborts with the overflow panic (release-mode Rust
would wrap) instead of yielding n!. The VM's Factorial handler pushes
exactly this checked product; `"5!"` and `"(2+3)!"` both evaluate to
Integer 120. -/
theorem claim_C5 :
    (∀ n : ℤ, n ≤ 0 → rangeProd n = .ok 1) ∧
    (∀ n : ℤ, 0 ≤ n → n ≤ 20 →
      rangeProd n = .ok (Nat.factorial n.toNat : ℤ)) ∧
    (∀ n : ℤ, 21 ≤ n → rangeProd n = .error .intOverflow) ∧
    (∀ (max : ℕ) (n : ℤ) (tl : List Value),
      execOp .Factorial ⟨max, .Int n :: tl⟩ =
        match rangeProd n with
        | .error e => .error e
        | .ok r => Stack.push ⟨max, tl⟩ (.Int r)) ∧
    evalString ("5!") 32 = some (.ok (some (.Int 120))) ∧
    evalString ("(2+3)!") 32 = some (.ok (some (.Int 120))) := by
  refine ⟨rangeProd_nonpos, rangeProd_small, rangeProd_big,
    fun max n tl => rfl, ?_, ?_⟩
  · with_unfolding_all rfl
  · with_unfolding_all rfl

/-- C5 counterexample: the claimed "for positive n the result is the
Integer n!" already fails at n = 21 — the i64 product overflows and the
Factorial handler aborts with the overflow panic instead of pushing
Integer 21!. -/
theorem claim_C5_counterexample :
    rangeProd 21 = .error .intOverflow ∧
    execOp .Factorial ⟨32, [.Int 21]⟩ = .error .intOverflow := by
  constructor <;> with_unfolding_all rfl

/-- Witness for C5 at n = -3 (empty range), n = 5 (5! = 120) and n = 25
(overflow abort). -/
theorem claim_C5_witness :
    rangeProd (-3) = .ok 1 ∧
    rangeProd 5 = .ok (Nat.factorial (5 : ℤ).toNat : ℤ) ∧
    rangeProd 25 = .error .intOverflow :=
  ⟨claim_C5.1 (-3) (by norm_num), claim_C5.2.1 5 (by norm_num) (by norm_num),
    claim_C5.2.2.1 25 (by norm_num)⟩

/-- C6: an opcode byte outside the recognized set, integer division or
modulo by zero, and Factorial on a Float operand are each a fatal abort
(an `error` outcome carrying no result value, never a normal result). -/
theorem claim_C6 :
    (∀ b : ℕ, 8 < b ↔ Opcode.ofByte b = none) ∧
    (∀ (f : ℕ) (b : ℕ) (rest : List ℕ) (st : Stack), Opcode.ofByte b = none →
      runLoop (f + 1) (b :: rest) st = .error .invalidOpcode) ∧
    (∀ a : ℤ, Value.div (.Int a) (.Int 0) = .error .divByZero ∧
      Value.rem (.Int a) (.Int 0) = .error .divByZero) ∧
    (∀ (max : ℕ) (q : ℚ) (tl : List Value),
      execOp .Factorial ⟨max, .Float q :: tl⟩ = .error .invalidValueType) ∧
    evalString ("1 / 0") 32 = some (.error .divByZero) ∧
    evalString ("7 % 0") 32 = some (.error .divByZero) ∧
    evalString ("2.5!") 32 = some (.error .invalidValueType) ∧
    Vm.run [255] 32 = .error .invalidOpcode := by
  refine ⟨fun b => (Opcode.ofByte_none_iff b).symm, ?_,
    fun a => ⟨rfl, rfl⟩, fun max q tl => rfl, ?_, ?_, ?_, ?_⟩
  · intro f b rest st h
    simp only [runLoop, h]
  · with_unfolding_all rfl
  · with_unfolding_all rfl
  · with_unfolding_all rfl
  · with_unfolding_all rfl

/-- Witness for C6's unknown-opcode step at byte 255. -/
theorem claim_C6_witness :
    runLoop 1 [255] (Stack.new 32) = .error .invalidOpcode :=
  claim_C6.2.1 0 255 [] (Stack.new 32) rfl

/-- C9: encoding any Value produces exactly 9 bytes — a tag byte (0 for
Int, 1 for Float) followed by the 8 big-endian payload bytes — and
decoding them reproduces the value exactly: the identical `i64` for every
in-range integer, and the identical bit pattern for every `f64` (a float
being, for the codec, precisely its IEEE-754 bit pattern; in this rational
model that is every exactly-representable payload). -/
theorem claim_C9 :
    (∀ v : Value, v.to_vec.length = 9 ∧ v.size = 9) ∧
    (∀ n : ℤ, (Value.Int n).to_vec = 0 :: beBytes8 (toU64 n) ∧
      (beBytes8 (toU64 n)).length = 8) ∧
    (∀ q : ℚ, (Value.Float q).to_vec = 1 :: beBytes8 (f64ToBits q) ∧
      (beBytes8 (f64ToBits q)).length = 8) ∧
    (∀ n : ℤ, -(2 ^ 63) ≤ n → n < 2 ^ 63 →
      Value.fromBytes (Value.Int n).to_vec = some (.Int n)) ∧
    (∀ q : ℚ, bitsToRat (f64ToBits q) = q →
      Value.fromBytes (Value.Float q).to_vec = some (.Float q)) := by
  refine ⟨fun v => ⟨Value.to_vec_length v, Value.size_eq v⟩,
    fun n => ⟨rfl, rfl⟩, fun q => ⟨rfl, rfl⟩, fun n h₁ h₂ => ?_, fun q hq => ?_⟩
  · have h := Value.fromBytes_to_vec (.Int n) []
    rw [List.append_nil] at h
    rw [h]
    simp only [Value.canon, fromU64_toU64 n h₁ h₂]
  · have h := Value.fromBytes_to_vec (.Float q) []
    rw [List.append_nil] at h
    rw [h]
    simp only [Value.canon, hq]

/-- Witness for C9 at Int 42 and Float 5/2 (bit pattern 0x4004000000000000). -/
theorem claim_C9_witness :
    Value.fromBytes (Value.Int 42).to_vec = some (.Int 42) ∧
    Value.fromBytes (Value.Float (5 / 2)).to_vec = some (.Float (5 / 2)) :=
  ⟨claim_C9.2.2.2.1 42 (by norm_num) (by norm_num),
   claim_C9.2.2.2.2 (5 / 2) (by with_unfolding_all rfl)⟩

/-- C10: decoding depends only on the first 9 bytes of the input — two
inputs agreeing on their first 9 bytes decode identically, and decoding an
encoded value followed by arbitrary trailing bytes still reproduces the
value — which is what lets the VM decode a Literal payload from the slice
running from the cursor to the end of the bytecode. -/
theorem claim_C10 :
    (∀ l₁ l₂ : List ℕ, l₁.take 9 = l₂.take 9 →
      Value.fromBytes l₁ = Value.fromBytes l₂) ∧
    (∀ (n : ℤ) (rest : List ℕ), -(2 ^ 63) ≤ n → n < 2 ^ 63 →
      Value.fromBytes ((Value.Int n).to_vec ++ rest) = some (.Int n)) ∧
    (∀ (q : ℚ) (rest : List ℕ), bitsToRat (f64ToBits q) = q →
      Value.fromBytes ((Value.Float q).to_vec ++ rest) = some (.Float q)) := by
  refine ⟨?_, fun n rest h₁ h₂ => ?_, fun q rest hq => ?_⟩
  · intro l₁ l₂ h
    cases l₁ with
    | nil =>
      cases l₂ with
      | nil => rfl
      | cons t₂ r₂ => simp at h
    | cons t₁ r₁ =>
      cases l₂ with
      | nil => simp at h
      | cons t₂ r₂ =>
        simp only [List.take_succ_cons, List.cons.injEq] at h
        obtain ⟨rfl, htail⟩ := h
        have hlen : (r₁.take 8).length = (r₂.take 8).length := by rw [htail]
        simp only [List.length_take] at hlen
        have htk : r₁.take 8 = r₂.take 8 := htail
        have hle : (8 ≤ r₁.length) = (8 ≤ r₂.length) := by
          apply propext
          omega
        simp only [Value.fromBytes, htk, hle]
  · rw [Value.fromBytes_to_vec]
    simp only [Value.canon, fromU64_toU64 n h₁ h₂]
  · rw [Value.fromBytes_to_vec]
    simp only [Value.canon, hq]

/-- Witness for C10: trailing garbage after the 9 encoded bytes is
ignored, both for take-9 agreement and for encoded values. -/
theorem claim_C10_witness :
    Value.fromBytes ((Value.Int 42).to_vec ++ [9, 9, 9]) = some (.Int 42) ∧
    Value.fromBytes ((Value.Float (5 / 2)).to_vec ++ [7]) = some (.Float (5 / 2)) :=
  ⟨claim_C10.2.1 42 [9, 9, 9] (by norm_num) (by norm_num),
   claim_C10.2.2 (5 / 2) [7] (by with_unfolding_all rfl)⟩

/-- C7: at the first `Return` the VM immediately yields the popped
top-of-stack value — whatever bytes follow are never executed — and a
byte stream containing no `Return` opcode byte can only finish with the
distinct "no result" outcome (`ok none`) or abort; it never yields a
value. -/
theorem claim_C7 :
    (∀ (f : ℕ) (rest : List ℕ) (max : ℕ) (v : Value) (d : List Value),
      runLoop (f + 1) (Opcode.Return.toByte :: rest) ⟨max, v :: d⟩ =
        .ok (some v)) ∧
    (∀ (f : ℕ) (st : Stack), runLoop f [] st = .ok none) ∧
    (∀ (f : ℕ) (code : List ℕ) (st : Stack),
      (∀ b ∈ code, b ≠ Opcode.Return.toByte) →
      runLoop f code st = .ok none ∨ ∃ er, runLoop f code st = .error er) := by
  refine ⟨fun f rest max v d => by rw [runLoop_ret]; rfl, runLoop_nil, ?_⟩
  intro f
  induction f with
  | zero => intro code st _; left; rfl
  | succ f ih =>
    intro code st hmem
    cases code with
    | nil => left; rfl
    | cons b rest =>
      have hb : b ≠ Opcode.Return.toByte := hmem b (List.mem_cons_self b rest)
      have hmem' : ∀ b' ∈ rest, b' ≠ Opcode.Return.toByte :=
        fun b' hb' => hmem b' (List.mem_cons_of_mem b hb')
      cases hop : Opcode.ofByte b with
      | none =>
        right
        exact ⟨.invalidOpcode, by simp only [runLoop, hop]⟩
      | some op =>
        cases op with
        | Return => exact absurd ((Opcode.ofByte_return_iff b).mp hop) hb
        | Literal =>
          cases hv : Value.fromBytes rest with
          | none =>
            right
            exact ⟨.invalidValueType, by simp only [runLoop, hop, hv]⟩
          | some v =>
            cases hp : st.push v with
            | error e =>
              right
              exact ⟨e, by simp only [runLoop, hop, hv, hp]⟩
            | ok st₁ =>
              have hrec := ih (rest.drop v.size) st₁
                (fun b' hb' => hmem' b' (List.drop_subset _ _ hb'))
              have heq : runLoop (f + 1) (b :: rest) st =
                  runLoop f (rest.drop v.size) st₁ := by
                simp only [runLoop, hop, hv, hp]
              rw [heq]
              exact hrec
        | Addition =>
          cases hx : execOp .Addition st with
          | error e => exact Or.inr ⟨e, by simp only [runLoop, hop, hx]⟩
          | ok st₁ =>
            have heq : runLoop (f + 1) (b :: rest) st = runLoop f rest st₁ := by
              simp only [runLoop, hop, hx]
            rw [heq]
            exact ih rest st₁ hmem'
        | Subtract =>
          cases hx : execOp .Subtract st with
          | error e => exact Or.inr ⟨e, by simp only [runLoop, hop, hx]⟩
          | ok st₁ =>
            have heq : runLoop (f + 1) (b :: rest) st = runLoop f rest st₁ := by
              simp only [runLoop, hop, hx]
            rw [heq]
            exact ih rest st₁ hmem'
        | Multiply =>
          cases hx : execOp .Multiply st with
          | error e => exact Or.inr ⟨e, by simp only [runLoop, hop, hx]⟩
          | ok st₁ =>
            have heq : runLoop (f + 1) (b :: rest) st = runLoop f rest st₁ := by
              simp only [runLoop, hop, hx]
            rw [heq]
            exact ih rest st₁ hmem'
        | Divide =>
          cases hx : execOp .Divide st with
          | error e => exact Or.inr ⟨e, by simp only [runLoop, hop, hx]⟩
          | ok st₁ =>
            have heq : runLoop (f + 1) (b :: rest) st = runLoop f rest st₁ := by
              simp only [runLoop, hop, hx]
            rw [heq]
            exact ih rest st₁ hmem'
        | Modulo =>
          cases hx : execOp .Modulo st with
          | error e => exact Or.inr ⟨e, by simp only [runLoop, hop, hx]⟩
          | ok st₁ =>
            have heq : runLoop (f + 1) (b :: rest) st = runLoop f rest st₁ := by
              simp only [runLoop, hop, hx]
            rw [heq]
            exact ih rest st₁ hmem'
        | Factorial =>
          cases hx : execOp .Factorial st with
          | error e => exact Or.inr ⟨e, by simp only [runLoop, hop, hx]⟩
          | ok st₁ =>
            have heq : runLoop (f + 1) (b :: rest) st = runLoop f rest st₁ := by
              simp only [runLoop, hop, hx]
            rw [heq]
            exact ih rest st₁ hmem'
        | Sqrt =>
          cases hx : execOp .Sqrt st with
          | error e => exact Or.inr ⟨e, by simp only [runLoop, hop, hx]⟩
          | ok st₁ =>
            have heq : runLoop (f + 1) (b :: rest) st = runLoop f rest st₁ := by
              simp only [runLoop, hop, hx]
            rw [heq]
            exact ih rest st₁ hmem'

/-- Witness for C7: a `Return` with garbage bytes after it still yields
the popped top of stack, and a Return-free program yields no value. -/
theorem claim_C7_witness :
    runLoop 3 (Opcode.Return.toByte :: [255, 255]) ⟨32, [Value.Int 9]⟩ =
      .ok (some (Value.Int 9)) ∧
    (runLoop 2 [Opcode.Addition.toByte, 255] (Stack.new 0) = .ok none ∨
      ∃ er, runLoop 2 [Opcode.Addition.toByte, 255] (Stack.new 0) = .error er) :=
  ⟨claim_C7.1 2 [255, 255] 32 (Value.Int 9) [],
   claim_C7.2.2 2 [Opcode.Addition.toByte, 255] (Stack.new 0) (by decide)⟩

/-- C8: bytecode produced by `compile` from any accepted source text never
pops an empty operand stack: the stack-underflow abort is unreachable for
compiler-produced programs, at every stack capacity. -/
theorem claim_C8 (input : String) (code : List ℕ) (ms : ℕ)
    (hc : compile input = some code) :
    Vm.run code ms ≠ .error .stackUnderflow := by
  obtain ⟨rem, ast, ce, hp, hce, rfl⟩ := compile_decomp input code hc
  rw [run_compiled_expr ast ce ms hce]
  cases hev : evalOn ast (Stack.new ms) with
  | error er =>
    have hner := (evalOn_spec ast (Stack.new ms)).1 er hev
    intro hcon
    have h2 : (Except.error er : Except VmError (Option Value)) =
      .error .stackUnderflow := hcon
    injection h2 with h3
    exact hner h3
  | ok st' =>
    obtain ⟨v, hvdata, hvmax⟩ := evalOn_new_shape ast ms st' hev
    obtain ⟨mx, data⟩ := st'
    simp only at hvdata
    subst hvdata
    intro hcon
    have h2 : (Except.ok (some v) : Except VmError (Option Value)) =
      .error .stackUnderflow := hcon
    cases h2

/-- Witness for C8 on the compiled form of `"1 + 2"` at stack size 32. -/
theorem claim_C8_witness :
    ∃ code, compile ("1 + 2") = some code ∧
      Vm.run code 32 ≠ .error .stackUnderflow :=
  ⟨_, rfl, claim_C8 ("1 + 2") _ 32 rfl⟩

/-- C4: all five binary operators sit on one precedence level and
associate left-to-right — every successful parse is the left fold of
`BinOp` over the initial term and the `(op, term)` pairs the loop
consumed, i.e. the left-nested tree — so `"1 + (2 * 3)"` evaluates to
Integer 7 (grouping required for multiplication-first) and `"2.5 * 3 + 1"`
to Float 8.5 (strictly left to right, not 2.5 * 4). -/
theorem claim_C4 :
    (∀ (f : ℕ) (l rem : List Char) (e : Expr),
      exprP (f + 1) l = some (rem, e) →
      ∃ l₁ t, termP f l = some (l₁, t) ∧
        rem = (collectPairs f l₁).1 ∧
        e = (collectPairs f l₁).2.foldl (fun a p => Expr.BinOp a p.1 p.2) t) ∧
    evalString ("1 + (2 * 3)") 32 = some (.ok (some (.Int 7))) ∧
    evalString ("2.5 * 3 + 1") 32 = some (.ok (some (.Float (17 / 2)))) := by
  refine ⟨?_, by with_unfolding_all rfl, by with_unfolding_all rfl⟩
  intro f l rem e h
  simp only [exprP] at h
  cases ht : termP f l with
  | none => rw [ht] at h; cases h
  | some p =>
    obtain ⟨l₁, t⟩ := p
    rw [ht] at h
    have h2 : some (exprLoopP f t l₁) = some (rem, e) := h
    injection h2 with h3
    rw [exprLoopP_eq_foldl] at h3
    exact ⟨l₁, t, rfl, (congrArg Prod.fst h3).symm, (congrArg Prod.snd h3).symm⟩

/-- Witness for C4's fold property on the input `"1 - 2 - 3"`: the parse
is the left-nested `(1 - 2) - 3`. -/
theorem claim_C4_witness :
    ∃ l₁ t, termP 30 ("1 - 2 - 3").toList = some (l₁, t) ∧
      ([] : List Char) = (collectPairs 30 l₁).1 ∧
      Expr.BinOp (Expr.BinOp (.Number (.Int 1)) '-' (.Number (.Int 2))) '-'
          (.Number (.Int 3)) =
        (collectPairs 30 l₁).2.foldl (fun a p => Expr.BinOp a p.1 p.2) t :=
  claim_C4.1 30 ("1 - 2 - 3").toList []
    (Expr.BinOp (Expr.BinOp (.Number (.Int 1)) '-' (.Number (.Int 2))) '-'
      (.Number (.Int 3))) (by decide)

/-- C1: the Sqrt instruction (Modelled from the spec — `Opcode::Sqrt` and
its VM dispatch are absent from `opcode.rs`/`vm.rs`) widens an Integer
operand to Float and yields its principal square root as a Float: for any
compiled expression evaluating to Integer k·k, appending the postfix `√`
yields Float k; in particular the full pipeline gives `"4√"` → Float 2.0
and `"2 * 16√"` → Float 8.0 (unary binds to the literal first). -/
theorem claim_C1 :
    (∀ (e : Expr) (ce : List ℕ) (ms : ℕ) (k : ℕ), 1 ≤ ms →
      compile_expr e = some ce →
      Vm.run (ce ++ [Opcode.Return.toByte]) ms =
        .ok (some (.Int ((k * k : ℕ) : ℤ))) →
      compile_expr (Expr.UnaryOp '√' e) = some (ce ++ [Opcode.Sqrt.toByte]) ∧
      Vm.run ((ce ++ [Opcode.Sqrt.toByte]) ++ [Opcode.Return.toByte]) ms =
        .ok (some (.Float (k : ℚ)))) ∧
    evalString ("4√") 32 = some (.ok (some (.Float 2))) ∧
    evalString ("2 * 16√") 32 = some (.ok (some (.Float 8))) := by
  refine ⟨?_, by with_unfolding_all rfl, by with_unfolding_all rfl⟩
  intro e ce ms k hms hce hrun
  have hcs : compile_expr (Expr.UnaryOp '√' e) =
      some (ce ++ [Opcode.Sqrt.toByte]) := by
    simp only [compile_expr, hce, bind, Option.bind]
    simp
  refine ⟨hcs, ?_⟩
  rw [run_compiled_expr _ _ _ hcs]
  rw [run_compiled_expr _ _ _ hce] at hrun
  cases hev : evalOn e (Stack.new ms) with
  | error er =>
    rw [hev] at hrun
    have h2 : (Except.error er : Except VmError (Option Value)) =
      .ok (some (.Int ((k * k : ℕ) : ℤ))) := hrun
    cases h2
  | ok st' =>
    rw [hev] at hrun
    obtain ⟨v, hvdata, hvmax⟩ := evalOn_new_shape e ms st' hev
    have hst : st' = ⟨ms, [v]⟩ := by
      obtain ⟨mx, data⟩ := st'
      simp only at hvdata hvmax
      rw [hvdata, hvmax]
    subst hst
    have h2 : (Except.ok (some v) : Except VmError (Option Value)) =
      .ok (some (.Int ((k * k : ℕ) : ℤ))) := hrun
    injection h2 with h3
    have h4 : v = .Int ((k * k : ℕ) : ℤ) := by
      injection h3
    subst h4
    have hq : ratSqrt (Value.toQ (.Int ((k * k : ℕ) : ℤ))) = (k : ℚ) := by
      have hcast : Value.toQ (.Int ((k * k : ℕ) : ℤ)) = (↑(k * k) : ℚ) := by
        simp [Value.toQ]
      rw [hcast, ratSqrt_sq_nat]
    have hstep : evalOn (Expr.UnaryOp '√' e) (Stack.new ms) =
        execOp .Sqrt ⟨ms, [.Int ((k * k : ℕ) : ℤ)]⟩ := by
      show (match evalOn e (Stack.new ms) with
        | Except.error er => (Except.error er : Except VmError Stack)
        | Except.ok st₁ => execOp Opcode.Sqrt st₁) = _
      rw [hev]
    rw [hstep]
    have hexec : execOp Opcode.Sqrt ⟨ms, [.Int ((k * k : ℕ) : ℤ)]⟩ =
        Except.ok ⟨ms, [Value.Float (k : ℚ)]⟩ := by
      show Stack.push ⟨ms, []⟩
        (Value.Float (ratSqrt (Value.toQ (.Int ((k * k : ℕ) : ℤ))))) = _
      rw [hq]
      show (if ([] : List Value).length < ms then _ else _) = _
      rw [if_pos (by simpa using hms)]
    rw [hexec]
    rfl

/-- Witness for C1's general part at the literal 4 (k = 2, stack 32). -/
theorem claim_C1_witness :
    compile_expr (Expr.UnaryOp '√' (Expr.Number (.Int 4))) =
      some ((Opcode.Literal.toByte :: (Value.Int 4).to_vec) ++
        [Opcode.Sqrt.toByte]) ∧
    Vm.run (((Opcode.Literal.toByte :: (Value.Int 4).to_vec) ++
        [Opcode.Sqrt.toByte]) ++ [Opcode.Return.toByte]) 32 =
      .ok (some (.Float ((2 : ℕ) : ℚ))) :=
  claim_C1.1 (Expr.Number (.Int 4)) _ 32 2 (by norm_num) rfl
    (by with_unfolding_all rfl)

/-- C2 counterexample: `compile` does NOT reject trailing garbage — the
Rust `compile` discards nom's unparsed remainder (`let (_, ast) =
expr(input)`), so `"1 + 2 junk"` compiles (to the bytecode of `"1 + 2"`),
`"1 +"` compiles (to the bytecode of `"1"`), and `"5!!"` compiles (to the
bytecode of `"5!"`), contradicting the claim that every such input yields
a syntax error and that a proper prefix is never silently compiled. -/
theorem claim_C2_counterexample :
    (compile ("1 + 2 junk")).isSome = true ∧
    compile ("1 + 2 junk") = compile ("1 + 2") ∧
    (compile ("1 +")).isSome = true ∧
    compile ("1 +") = compile ("1") ∧
    (compile ("5!!")).isSome = true ∧
    compile ("5!!") = compile ("5!") := by
  refine ⟨?_, ?_, ?_, ?_, ?_, ?_⟩ <;> decide

/-- C2 (amended): `compile` returns a syntax error exactly when the input
does not begin with a well-formed expression (the leading-expression parse
fails) — e.g. `"abc"`, `"(1 + 2"` and an integer literal overflowing `i64`
are all rejected — but an input that begins with a well-formed expression
followed by anything else is accepted: the parser's unparsed remainder is
discarded and only the leading expression is compiled. -/
theorem claim_C2 :
    compile ("abc") = none ∧
    compile ("(1 + 2") = none ∧
    compile ("99999999999999999999") = none ∧
    (∀ input : String, compile input = none ↔ parseExpr input = none) ∧
    (∀ (input : String) (rem : List Char) (ast : Expr),
      parseExpr input = some (rem, ast) →
      compile input =
        (compile_expr ast).map (fun ce => ce ++ [Opcode.Return.toByte])) := by
  refine ⟨by decide, by decide, by decide, compile_none_iff, ?_⟩
  · intro input rem ast h
    simp only [compile, h]
    cases compile_expr ast with
    | none => rfl
    | some ce => rfl

/-- Witness for C2's amended general parts, on `"1 +"`: the parse yields
the leading literal `1` with remainder `"+"` (so compile does not fail),
and compile emits exactly that literal's bytecode. -/
theorem claim_C2_witness :
    (compile ("1 +") = none ↔ parseExpr ("1 +") = none) ∧
    compile ("1 +") =
      (compile_expr (.Number (.Int 1))).map
        (fun ce => ce ++ [Opcode.Return.toByte]) :=
  ⟨claim_C2.2.2.2.1 ("1 +"),
    claim_C2.2.2.2.2 ("1 +") ['+'] (.Number (.Int 1)) (by decide)⟩

end Rvm
